import Mathlib

/-!
# adifspeak: the ADIF record selector and field renderer

A shallow embedding of `src/main.go` (`read`, `parse`, the `fields` table) together
with the parts of the Go standard library they call (`strings.Index`,
`strings.HasPrefix`, `strings.TrimSpace`, `strconv.Atoi`, the `range` loop over a
string, `strings.Builder.WriteRune`, `bufio.Scanner` with the default line splitter).

Modelling conventions.

* A Go `string` is its sequence of bytes: `Bytes = List Nat` (each element a byte).
  `len`, `strings.Index` and slice expressions count bytes, as in Go.
* Go `int` is 64 bits wide: every `+` and `-` of the source is `add64` / `sub64`,
  which wrap modulo `2^64` into the signed range.
* A slice expression `s[lo:hi]` whose bounds are out of range makes the Go runtime
  panic; `slice` returns `none` there and the caller's outcome is `panic`.
* `parse` and `read` return a pair `(value, error)` in Go; the outcome `ret v e`
  keeps both components, `e = none` being the `nil` error.
-/

namespace Adifspeak

/-- A Go string, as the sequence of its bytes. -/
abbrev Bytes := List Nat

/-! ## Machine integers -/

/-- Wrap an integer into the signed 64-bit range of a Go `int`. -/
def wrap64 (x : Int) : Int := (x + 2 ^ 63) % 2 ^ 64 - 2 ^ 63

/-- Go `a + b` on `int`. -/
def add64 (a b : Int) : Int := wrap64 (a + b)

/-- Go `a - b` on `int`. -/
def sub64 (a b : Int) : Int := wrap64 (a - b)

/-- Go `len(s)`. -/
def len (s : Bytes) : Int := (s.length : Int)

/-! ## UTF-8 (package `unicode/utf8`) -/

/-- The replacement rune `utf8.RuneError` (U+FFFD). -/
def RuneError : Nat := 0xFFFD

/-- Go `utf8.AppendRune`: the UTF-8 encoding of a rune; surrogates and values above
U+10FFFF are encoded as `RuneError`. -/
def EncodeRune (r : Nat) : Bytes :=
  if r < 0x80 then [r]
  else if r < 0x800 then [0xC0 + r / 64, 0x80 + r % 64]
  else if 0x10FFFF < r ∨ (0xD800 ≤ r ∧ r ≤ 0xDFFF) then [0xEF, 0xBF, 0xBD]
  else if r < 0x10000 then [0xE0 + r / 4096, 0x80 + r / 64 % 64, 0x80 + r % 64]
  else [0xF0 + r / 262144, 0x80 + r / 4096 % 64, 0x80 + r / 64 % 64, 0x80 + r % 64]

/-- The bytes of a Go string literal (Go source text is UTF-8). -/
def str (s : String) : Bytes := s.toList.flatMap (fun c => EncodeRune c.toNat)

/-- Go `utf8.DecodeRuneInString`: the first rune of `s` and its width in bytes.
An empty string gives `(RuneError, 0)`, an invalid encoding `(RuneError, 1)`. -/
def DecodeRune : Bytes → Nat × Nat
  | [] => (RuneError, 0)
  | s0 :: rest =>
    if s0 < 0x80 then (s0, 1)
    else if s0 < 0xC2 ∨ 0xF4 < s0 then (RuneError, 1)
    else
      let sz := if s0 < 0xE0 then 2 else if s0 < 0xF0 then 3 else 4
      let lo := if s0 = 0xE0 then 0xA0 else if s0 = 0xF0 then 0x90 else 0x80
      let hi := if s0 = 0xED then 0x9F else if s0 = 0xF4 then 0x8F else 0xBF
      match rest with
      | [] => (RuneError, 1)
      | s1 :: rest1 =>
        if rest.length + 1 < sz then (RuneError, 1)
        else if s1 < lo ∨ hi < s1 then (RuneError, 1)
        else if sz ≤ 2 then ((s0 % 32) * 64 + s1 % 64, 2)
        else
          match rest1 with
          | [] => (RuneError, 1)
          | s2 :: rest2 =>
            if s2 < 0x80 ∨ 0xBF < s2 then (RuneError, 1)
            else if sz ≤ 3 then ((s0 % 16) * 4096 + (s1 % 64) * 64 + s2 % 64, 3)
            else
              match rest2 with
              | [] => (RuneError, 1)
              | s3 :: _ =>
                if s3 < 0x80 ∨ 0xBF < s3 then (RuneError, 1)
                else ((s0 % 8) * 262144 + (s1 % 64) * 4096 + (s2 % 64) * 64 + s3 % 64, 4)

/-- Go `utf8.RuneStart`: the byte is not a continuation byte. -/
def RuneStart (b : Nat) : Bool := !(0x80 ≤ b && b < 0xC0)

/-- Go `utf8.DecodeLastRuneInString`: the last rune of `s` and its width in bytes. -/
def DecodeLastRune (s : Bytes) : Nat × Nat :=
  let e := s.length
  if e = 0 then (RuneError, 0)
  else
    let r := s.getD (e - 1) 0
    if r < 0x80 then (r, 1)
    else
      -- walk back from `e - 2` to `lim = max (e - 4) 0` looking for a rune start
      let start :=
        if 2 ≤ e ∧ RuneStart (s.getD (e - 2) 0) then e - 2
        else if 3 ≤ e ∧ RuneStart (s.getD (e - 3) 0) then e - 3
        else if 4 ≤ e ∧ RuneStart (s.getD (e - 4) 0) then e - 4
        else e - 4
      let d := DecodeRune (s.drop start)
      if start + d.2 ≠ e then (RuneError, 1) else d

/-- The runes a Go `for _, r := range s` loop yields, in order (`fuel` bounds the
number of iterations; `s.length` is always enough). -/
def rangeRunes : Nat → Bytes → List Nat
  | 0, _ => []
  | _, [] => []
  | fuel + 1, b :: s =>
    let d := DecodeRune (b :: s)
    d.1 :: rangeRunes fuel ((b :: s).drop d.2)

/-- The runes of a Go string, as a `range` loop sees them. -/
def runes (s : Bytes) : List Nat := rangeRunes s.length s

/-! ## Package `unicode` and `strings` -/

/-- Go `unicode.IsSpace`. -/
def IsSpace (r : Nat) : Bool :=
  r = 0x09 ∨ r = 0x0A ∨ r = 0x0B ∨ r = 0x0C ∨ r = 0x0D ∨ r = 0x20 ∨ r = 0x85 ∨ r = 0xA0 ∨
  r = 0x1680 ∨ (0x2000 ≤ r ∧ r ≤ 0x200A) ∨ r = 0x2028 ∨ r = 0x2029 ∨ r = 0x202F ∨
  r = 0x205F ∨ r = 0x3000

/-- Go `strings.TrimLeftFunc(s, unicode.IsSpace)`: drop leading white-space runes. -/
def trimLeftSpace : Nat → Bytes → Bytes
  | 0, s => s
  | _, [] => []
  | fuel + 1, b :: s =>
    let d := DecodeRune (b :: s)
    if IsSpace d.1 then trimLeftSpace fuel ((b :: s).drop d.2) else b :: s

/-- Go `strings.TrimRightFunc(s, unicode.IsSpace)`: drop trailing white-space runes. -/
def trimRightSpace : Nat → Bytes → Bytes
  | 0, s => s
  | fuel + 1, s =>
    let d := DecodeLastRune s
    if s ≠ [] ∧ IsSpace d.1 then trimRightSpace fuel (s.take (s.length - d.2)) else s

/-- Go `strings.TrimSpace`: `s` without its leading and trailing white space, as
defined by Unicode. -/
def TrimSpace (s : Bytes) : Bytes :=
  let t := trimLeftSpace s.length s
  trimRightSpace t.length t

/-- Go `strings.HasPrefix`. -/
def HasPrefix : Bytes → Bytes → Bool
  | _, [] => true
  | [], _ :: _ => false
  | c :: s, p :: ps => decide (c = p) && HasPrefix s ps

/-- First byte offset at which `substr` occurs in `s`, if any. -/
def indexOf (substr : Bytes) : Bytes → Option Nat
  | [] => if substr = [] then some 0 else none
  | c :: s =>
    if HasPrefix (c :: s) substr then some 0
    else (indexOf substr s).map (· + 1)

/-- Go `strings.Index`: the offset of the first occurrence of `substr` in `s`, or
`-1` when there is none. -/
def Index (s substr : Bytes) : Int :=
  match indexOf substr s with
  | some i => (i : Int)
  | none => -1

/-- Go slice expression `s[lo:hi]`; `none` stands for the runtime panic
"slice bounds out of range". -/
def slice (s : Bytes) (lo hi : Int) : Option Bytes :=
  if 0 ≤ lo ∧ lo ≤ hi ∧ hi ≤ len s then some ((s.drop lo.toNat).take (hi - lo).toNat)
  else none

/-- Go slice expression `s[lo:]`. -/
def sliceFrom (s : Bytes) (lo : Int) : Option Bytes := slice s lo (len s)

/-- Go slice expression `s[:hi]`. -/
def sliceTo (s : Bytes) (hi : Int) : Option Bytes := slice s 0 hi

/-! ## Package `strconv` -/

/-- The two causes a `strconv.NumError` can carry. -/
inductive NumErrKind where
  | ErrSyntax
  | ErrRange
  deriving DecidableEq, Repr

/-- Go `strconv.NumError`: the failing function, the input text and the cause. -/
structure NumError where
  Func : String
  Num : Bytes
  Err : NumErrKind
  deriving DecidableEq, Repr

/-- The digit loop of `strconv.Atoi`'s fast path (inputs shorter than 19 bytes):
`none` is a syntax error. -/
def atoiDigits : Bytes → Nat → Option Nat
  | [], n => some n
  | ch :: s, n => if 0x30 ≤ ch ∧ ch ≤ 0x39 then atoiDigits s (n * 10 + (ch - 0x30)) else none

/-- The digit loop of `strconv.ParseUint` for base 10 and 64 bits: a byte that is
not a decimal digit is a syntax error, a value above `2^64 - 1` a range error,
whichever the loop meets first. -/
def parseUintDigits : Bytes → Nat → Except NumErrKind Nat
  | [], n => .ok n
  | c :: s, n =>
    if 0x30 ≤ c ∧ c ≤ 0x39 then
      if n ≥ (2 ^ 64 - 1) / 10 + 1 then .error .ErrRange
      else if n * 10 + (c - 0x30) > 2 ^ 64 - 1 then .error .ErrRange
      else parseUintDigits s (n * 10 + (c - 0x30))
    else .error .ErrSyntax

/-- Go `strconv.ParseInt(s, 10, 0)` on a 64-bit platform. Only a range error of
`ParseUint` lets the sign check go on, with the saturated value `2^64 - 1`. -/
def ParseInt (s : Bytes) : Except NumErrKind Int :=
  match s with
  | [] => .error .ErrSyntax
  | c :: t =>
    let neg := decide (c = 0x2D)
    let body := if c = 0x2B ∨ c = 0x2D then t else s
    if body = [] then .error .ErrSyntax
    else
      match parseUintDigits body 0 with
      | .error .ErrSyntax => .error .ErrSyntax
      | .error .ErrRange => .error .ErrRange
      | .ok un =>
        if !neg ∧ un ≥ 2 ^ 63 then .error .ErrRange
        else if neg ∧ un > 2 ^ 63 then .error .ErrRange
        else .ok (if neg then -(un : Int) else (un : Int))

/-- Go `strconv.Atoi` on a 64-bit platform. On failure the error is a `NumError`
with `Func = "Atoi"` and `Num` the whole input. -/
def Atoi (s : Bytes) : Except NumError Int :=
  if 0 < s.length ∧ s.length < 19 then
    match s with
    | [] => .error ⟨"Atoi", s, .ErrSyntax⟩
    | c :: t =>
      let signed := decide (c = 0x2D ∨ c = 0x2B)
      let body := if signed then t else s
      if signed ∧ body.length < 1 then .error ⟨"Atoi", s, .ErrSyntax⟩
      else
        match atoiDigits body 0 with
        | none => .error ⟨"Atoi", s, .ErrSyntax⟩
        | some n => .ok (if c = 0x2D then -(n : Int) else (n : Int))
  else
    match ParseInt s with
    | .error k => .error ⟨"Atoi", s, k⟩
    | .ok i => .ok i

/-! ## `main.go` -/

/-- The outcome of running a Go function that returns `(value, error)`: it returns
the pair (`err = none` is `nil`), or the runtime panics. -/
inductive Outcome (α : Type) where
  | ret (value : α) (err : Option NumError)
  | panic
  deriving DecidableEq, Repr

/-- One field rule (`type fieldInfo struct`). -/
structure fieldInfo where
  key : Bytes
  spoken : Bytes
  suffix : Bytes := []
  truncateTrailingN : Int := 0
  spaced : Bool := false
  deriving DecidableEq, Repr

/-- The rule table of `parse`, in source order. -/
def fields : List fieldInfo :=
  [ { key := str "<TIME_ON:", spoken := str "time" },
    { key := str "<BAND:", spoken := str "band", truncateTrailingN := 1, suffix := str " meters " },
    { key := str "<MODE:", spoken := str "mode" },
    { key := str "<CALL:", spoken := str "station", spaced := true },
    { key := str "<RST_SENT:", spoken := str "send" },
    { key := str "<RST_RCVD:", spoken := str "received" },
    { key := str "<SIG_INFO:", spoken := str "information" },
    { key := str "<COMMENT:", spoken := str "comment" },
    { key := str "<OPERATOR:", spoken := str "operator", spaced := true } ]

/-- The terminator `end := ">"` of `parse`. -/
def endMark : Bytes := str ">"

/-- Go `response.WriteString(s)`. -/
def WriteString (response s : Bytes) : Bytes := response ++ s

/-- Go `response.WriteRune(r)`. -/
def WriteRune (response : Bytes) (r : Nat) : Bytes := response ++ EncodeRune r

/-- How one iteration of the loop of `parse` ends. -/
inductive Flow where
  /-- The loop goes on with this content of the builder. -/
  | next (response : Bytes)
  /-- The function returns the pair `(phrase, err)`. -/
  | exit (phrase : Bytes) (err : NumError)
  /-- A slice expression was out of range. -/
  | panic
  deriving DecidableEq, Repr

/-- How the decoding part of the loop body (lines 120-136) ends. -/
inductive Decoded where
  /-- The key does not occur: `continue`. -/
  | absent
  /-- The trimmed value `data`. -/
  | data (data : Bytes)
  /-- `strconv.Atoi` failed with `err`. -/
  | fail (err : NumError)
  /-- A slice expression was out of range. -/
  | panic
  deriving DecidableEq, Repr

/-- Lines 120-136 of `parse`: locate the key, read the length literal up to the
terminator, convert it, slice the value out of the record and trim it. -/
def decodeField (record : Bytes) (field : fieldInfo) : Decoded :=
  let startIdx := Index record field.key
  if startIdx = -1 then .absent
  else
    match sliceFrom record startIdx with
    | none => .panic
    | some tail =>
      let endIdx := add64 (Index tail endMark) startIdx
      match slice record (add64 startIdx (len field.key)) endIdx with
      | none => .panic
      | some dataLen =>
        match Atoi dataLen with
        | .error err => .fail err
        | .ok dl =>
          let dataIdxStart :=
            add64 (add64 (add64 startIdx (len field.key)) (len dataLen)) (len endMark)
          let dataIdxEnd := add64 dataIdxStart dl
          match slice record dataIdxStart dataIdxEnd with
          | none => .panic
          | some raw => .data (TrimSpace raw)

/-- The spaced branch: `for _, r := range data { WriteRune(r); WriteRune(' ') }`. -/
def writeSpaced (response : Bytes) (rs : List Nat) : Bytes :=
  rs.foldl (fun acc r => WriteRune (WriteRune acc r) 0x20) response

/-- Lines 141-149 of `parse`: the value, spelled out or as one token; `none` when
the slice `data[:len(data)-int(field.truncateTrailingN)]` is out of range. -/
def writeValue (field : fieldInfo) (data response : Bytes) : Option Bytes :=
  if field.spaced then some (writeSpaced response (runes data))
  else
    match sliceTo data (sub64 (len data) field.truncateTrailingN) with
    | none => none
    | some tok => some (WriteRune (WriteString response tok) 0x20)

/-- Lines 151-154 of `parse`: the suffix, when there is one. -/
def writeSuffix (field : fieldInfo) (response : Bytes) : Bytes :=
  if len field.suffix > 0 then WriteRune (WriteString response field.suffix) 0x20
  else response

/-- Lines 138-154 of `parse`: the writes to the builder for a decoded value. -/
def writeField (field : fieldInfo) (data response : Bytes) : Option Bytes :=
  match writeValue field data (WriteRune (WriteString response field.spoken) 0x20) with
  | none => none
  | some response => some (writeSuffix field response)

/-- The body of the loop `for _, field := range fields` of `parse` (lines 120-154),
run on the builder content `response`. -/
def parseField (record : Bytes) (field : fieldInfo) (response : Bytes) : Flow :=
  match decodeField record field with
  | .absent => .next response
  | .fail err => .exit [] err
  | .panic => .panic
  | .data data =>
    match writeField field data response with
    | none => .panic
    | some response => .next response

/-- The loop of `parse` over a rule table, from the builder content `response`. -/
def parseLoop (record : Bytes) : List fieldInfo → Bytes → Outcome Bytes
  | [], response => .ret response none
  | field :: rest, response =>
    match parseField record field response with
    | .next response => parseLoop record rest response
    | .exit phrase err => .ret phrase (some err)
    | .panic => .panic

/-- The function `parse` run with the rule table `table`. -/
def parseWith (table : List fieldInfo) (record : Bytes) : Outcome Bytes :=
  parseLoop record table []

/-- The function `parse` of `main.go`. -/
def parse (record : Bytes) : Outcome Bytes := parseWith fields record

/-! ### `read` and the line scanner -/

/-- What an `io.Reader` delivers: its bytes and then either end of file
(`err = none`) or a read error. -/
structure Reader where
  data : Bytes
  err : Option String := none
  deriving DecidableEq, Repr

/-- Go `bufio.MaxScanTokenSize`, the size the scanner's buffer may grow to. -/
def MaxScanTokenSize : Nat := 64 * 1024

/-- The helper `dropCR` of `bufio.ScanLines`: drop one trailing carriage return. -/
def dropCR (data : Bytes) : Bytes :=
  if data.getLast? = some 0x0D then data.dropLast else data

/-- The tokens `bufio.Scanner.Scan` delivers with the split function
`bufio.ScanLines`, `cur` being the bytes of the line under way. A line ends at a
newline; a last line without newline is delivered when it is not empty; when the
buffer, `MaxScanTokenSize` bytes, fills up before the line ends, `Scan` returns
false (`bufio.ErrTooLong`) and nothing more is delivered. -/
def scanLines : Bytes → Bytes → List Bytes
  | [], cur => if cur = [] then [] else [dropCR cur]
  | b :: rest, cur =>
    if b = 0x0A then dropCR cur :: scanLines rest []
    else if cur.length + 1 ≥ MaxScanTokenSize then []
    else scanLines rest (cur ++ [b])

/-- The successive values of `s.Text()` in the loop `for s.Scan()` of `read`. After
a read error the scanner splits what it has buffered as at end of file and then
stops, so the lines do not depend on `err`; `read` never consults `s.Err()`. -/
def scanTexts (input : Reader) : List Bytes := scanLines input.data []

/-- The loop `for s.Scan()` of `read` over the scanned lines, from the list `qsos`. -/
def readLoop : List Bytes → List Bytes → Outcome (List Bytes)
  | [], qsos => .ret qsos none
  | qso :: rest, qsos =>
    if HasPrefix qso (str "<QSO_DATE:") then
      match parse qso with
      | .ret r none => readLoop rest (qsos ++ [r])
      | .ret _ (some err) => .ret qsos (some err)
      | .panic => .panic
    else readLoop rest qsos

/-- The function `read` of `main.go`. -/
def read (input : Reader) : Outcome (List Bytes) := readLoop (scanTexts input) []

/-! ## Notions used to state the properties -/

/-- The rule's key occurs in the record (`strings.Index` does not return `-1`). -/
def keyOccurs (record : Bytes) (field : fieldInfo) : Bool :=
  (indexOf field.key record).isSome

/-- What a rule appends to the phrase: the builder content after the loop body has
run on an empty builder (empty when the body does not complete). -/
def contribution (record : Bytes) (field : fieldInfo) : Bytes :=
  match parseField record field [] with
  | .next c => c
  | _ => []

/-- Prefix the content of the builder to the outcome of a loop body that was run
on an empty builder. -/
def Flow.onto (response : Bytes) : Flow → Flow
  | .next c => .next (response ++ c)
  | .exit phrase err => .exit phrase err
  | .panic => .panic

/-- `s` occurs in `t` as a contiguous substring. -/
def occursIn (s t : Bytes) : Bool := (indexOf s t).isSome

/-- The rules of the table by name. -/
def ruleTimeOn : fieldInfo := { key := str "<TIME_ON:", spoken := str "time" }

/-- The BAND rule. -/
def ruleBand : fieldInfo :=
  { key := str "<BAND:", spoken := str "band", truncateTrailingN := 1, suffix := str " meters " }

/-- The MODE rule. -/
def ruleMode : fieldInfo := { key := str "<MODE:", spoken := str "mode" }

/-- The CALL rule. -/
def ruleCall : fieldInfo := { key := str "<CALL:", spoken := str "station", spaced := true }

/-- The COMMENT rule. -/
def ruleComment : fieldInfo := { key := str "<COMMENT:", spoken := str "comment" }

/-- Where a rule's field lies in a record: the offset of the first occurrence of
the key, the length literal (the text between the key and the next `>`), and the
offset just after that `>`, where the value begins. -/
structure Located where
  keyAt : Nat
  literal : Bytes
  valueAt : Nat
  deriving DecidableEq, Repr

/-- Locate a rule's field: the first occurrence of the key and the first `>` after
the key; `none` when the key or the `>` is missing. -/
def locate (record : Bytes) (field : fieldInfo) : Option Located :=
  match indexOf field.key record with
  | none => none
  | some i =>
    match indexOf endMark (record.drop (i + field.key.length)) with
    | none => none
    | some k =>
      some ⟨i, (record.drop (i + field.key.length)).take k, i + field.key.length + k + 1⟩

/-- Line 136 of `parse`, from the outcome of the slice expression
`record[dataIdxStart:dataIdxEnd]`. -/
def decodeSlice : Option Bytes → Decoded
  | none => .panic
  | some raw => .data (TrimSpace raw)

/-- Lines 129-136 of `parse`, from the offset `dataIdxStart` and the result of
`strconv.Atoi` on the length literal. -/
def decodeRest (record : Bytes) (dataIdxStart : Int) : Except NumError Int → Decoded
  | .error err => .fail err
  | .ok dl => decodeSlice (slice record dataIdxStart (add64 dataIdxStart dl))

/-- The byte is a decimal digit. -/
def isDigit (c : Nat) : Bool := decide (0x30 ≤ c ∧ c ≤ 0x39)

/-- The number written by decimal digits, read from the accumulator `n`. -/
def decimal (s : Bytes) (n : Nat) : Nat := s.foldl (fun n c => n * 10 + (c - 0x30)) n

/-- The number a length literal denotes: one or more decimal digits and nothing
else. -/
def decimalValue (lit : Bytes) : Option Nat :=
  if lit ≠ [] ∧ lit.all isDigit then some (decimal lit 0) else none

/-- The text is a base-10 integer: an optional sign `+` or `-`, then one or more
decimal digits. -/
def isBase10Integer : Bytes → Bool
  | [] => false
  | c :: t =>
    if c = 0x2B ∨ c = 0x2D then decide (t ≠ []) && t.all isDigit
    else (c :: t).all isDigit

/-- The raw value of a rule's field: the `N` bytes after the `>` that ends the length
literal, when the literal is decimal, denotes `N`, and those bytes lie within the
record. -/
def rawValue (record : Bytes) (field : fieldInfo) : Option Bytes :=
  match locate record field with
  | none => none
  | some loc =>
    match decimalValue loc.literal with
    | none => none
    | some n =>
      if loc.valueAt + n ≤ record.length then some ((record.drop loc.valueAt).take n)
      else none

/-- The rendering of a value under a rule (specification, section 4.2): spelled out
rune by rune, each followed by a space, or as one token without its last
`truncateTrailingN` bytes, followed by a space. -/
def renderValue (field : fieldInfo) (data : Bytes) : Bytes :=
  if field.spaced then (runes data).flatMap (fun r => EncodeRune r ++ [0x20])
  else data.take (data.length - field.truncateTrailingN.toNat) ++ [0x20]

/-- The contribution of a rule for the decoded value `data` (specification, section
4.2): the spoken label, a space, the rendered value, and the suffix followed by a
space when the suffix is not empty. -/
def render (field : fieldInfo) (data : Bytes) : Bytes :=
  field.spoken ++ [0x20] ++ renderValue field data ++
    (if field.suffix = [] then [] else field.suffix ++ [0x20])

/-- A rule's field is well formed in a record: the first occurrence of the key is
followed by one or more decimal digits and a `>`, the digits denote `N`, the `N`
bytes after the `>` lie within the record, and, for a rule that is not spaced, the
trimmed value has at least `truncateTrailingN` bytes. -/
def wellFormed (record : Bytes) (field : fieldInfo) : Bool :=
  match rawValue record field with
  | none => false
  | some raw =>
    field.spaced ||
      decide (0 ≤ field.truncateTrailingN ∧ field.truncateTrailingN ≤ len (TrimSpace raw))

/-- A scanned line is taken as a contact record: it starts with the marker
`<QSO_DATE:`, the test `strings.HasPrefix(qso, "<QSO_DATE:")` of `read`. -/
def qualifies (line : Bytes) : Bool := HasPrefix line (str "<QSO_DATE:")

/-- The phrase `parse` returns for a line (empty when `parse` panics). -/
def rendered (line : Bytes) : Bytes :=
  match parse line with
  | .ret phrase _ => phrase
  | .panic => []

/-- The decoded value of a rule's field: its raw value, trimmed (empty when the
field has no raw value). -/
def fieldValue (record : Bytes) (field : fieldInfo) : Bytes :=
  match rawValue record field with
  | some raw => TrimSpace raw
  | none => []

/-! # Properties -/

/-! ## The loop of `parse` -/

theorem writeSpaced_eq (response : Bytes) (rs : List Nat) :
    writeSpaced response rs = response ++ rs.flatMap (fun r => EncodeRune r ++ [0x20]) := by
  induction rs generalizing response with
  | nil => simp [writeSpaced]
  | cons r rs ih =>
    have h := ih (WriteRune (WriteRune response r) 0x20)
    simp only [writeSpaced, List.foldl_cons] at h ⊢
    rw [h]
    simp [WriteRune, EncodeRune, List.flatMap_cons]

theorem writeField_onto (field : fieldInfo) (data response : Bytes) :
    writeField field data response = (writeField field data []).map (response ++ ·) := by
  unfold writeField writeValue writeSuffix
  by_cases hs : field.spaced = true
  · simp only [hs, if_true, writeSpaced_eq, WriteString, WriteRune]
    split <;> simp
  · simp only [hs, WriteString, WriteRune]
    cases sliceTo data (sub64 (len data) field.truncateTrailingN) with
    | none => simp
    | some tok => simp; split <;> simp

theorem parseField_onto (record : Bytes) (field : fieldInfo) (response : Bytes) :
    parseField record field response = (parseField record field []).onto response := by
  unfold parseField
  cases decodeField record field with
  | absent => simp [Flow.onto]
  | fail err => rfl
  | panic => rfl
  | data d =>
    simp only []
    rw [writeField_onto]
    cases writeField field d [] <;> simp [Flow.onto]

theorem Index_eq_neg_one (s substr : Bytes) :
    Index s substr = -1 ↔ indexOf substr s = none := by
  unfold Index
  cases h : indexOf substr s with
  | none => simp
  | some i => simp

theorem decodeField_absent (record : Bytes) (field : fieldInfo)
    (h : keyOccurs record field = false) : decodeField record field = .absent := by
  have h1 : Index record field.key = -1 := by
    rw [Index_eq_neg_one]
    simpa [keyOccurs] using h
  simp [decodeField, h1]

theorem parseField_absent (record : Bytes) (field : fieldInfo) (response : Bytes)
    (h : keyOccurs record field = false) : parseField record field response = .next response := by
  simp [parseField, decodeField_absent record field h]

theorem contribution_absent (record : Bytes) (field : fieldInfo)
    (h : keyOccurs record field = false) : contribution record field = [] := by
  simp [contribution, parseField_absent record field [] h]

theorem parseField_next (record : Bytes) (field : fieldInfo) (response out : Bytes)
    (h : parseField record field response = .next out) :
    parseField record field [] = .next (contribution record field) ∧
      out = response ++ contribution record field := by
  rw [parseField_onto] at h
  unfold contribution
  cases h0 : parseField record field [] with
  | next c => simp [h0, Flow.onto] at h; simp [h]
  | exit p e => simp [h0, Flow.onto] at h
  | panic => simp [h0, Flow.onto] at h

theorem parseLoop_ret (record : Bytes) (table : List fieldInfo) (response phrase : Bytes)
    (h : parseLoop record table response = .ret phrase none) :
    phrase = response ++ table.flatMap (contribution record) ∧
      ∀ f ∈ table, parseField record f [] = .next (contribution record f) := by
  induction table generalizing response with
  | nil => simp [parseLoop] at h; simp [h]
  | cons f rest ih =>
    simp only [parseLoop] at h
    cases hf : parseField record f response with
    | next out =>
      rw [hf] at h
      obtain ⟨h1, h2⟩ := parseField_next record f response out hf
      obtain ⟨h3, h4⟩ := ih out h
      refine ⟨by simp [h3, h2, List.flatMap_cons], ?_⟩
      intro g hg
      rcases List.mem_cons.mp hg with rfl | hg
      · exact h1
      · exact h4 g hg
    | exit p e => simp [hf] at h
    | panic => simp [hf] at h

theorem flatMap_filter_keyOccurs (record : Bytes) (table : List fieldInfo) :
    (table.filter (keyOccurs record)).flatMap (contribution record) =
      table.flatMap (contribution record) := by
  induction table with
  | nil => rfl
  | cons f rest ih =>
    by_cases hf : keyOccurs record f = true
    · simp [List.filter_cons, hf, List.flatMap_cons, ih]
    · have hf2 : keyOccurs record f = false := by simpa using hf
      simp [List.filter_cons, hf2, List.flatMap_cons, ih, contribution_absent record f hf2]

theorem parseLoop_filter (record : Bytes) (table : List fieldInfo) (response : Bytes) :
    parseLoop record table response =
      parseLoop record (table.filter (keyOccurs record)) response := by
  induction table generalizing response with
  | nil => rfl
  | cons f rest ih =>
    by_cases hf : keyOccurs record f = true
    · simp only [List.filter_cons, hf, if_true, parseLoop]
      cases parseField record f response with
      | next out => simp [ih]
      | exit p e => rfl
      | panic => rfl
    · have hf2 : keyOccurs record f = false := by simpa using hf
      simp only [List.filter_cons, hf2, parseLoop, parseField_absent record f response hf2]
      simpa using ih response

theorem parseLoop_remove (record : Bytes) (pre post : List fieldInfo) (f : fieldInfo)
    (response : Bytes) (h : keyOccurs record f = false) :
    parseLoop record (pre ++ f :: post) response = parseLoop record (pre ++ post) response := by
  induction pre generalizing response with
  | nil => simp [parseLoop, parseField_absent record f response h]
  | cons g rest ih =>
    simp only [List.cons_append, parseLoop]
    cases parseField record g response with
    | next out => simp [ih]
    | exit p e => rfl
    | panic => rfl

theorem split_at_two {α : Type} (l : List α) (i j : Nat) (a b : α) (hij : i < j)
    (hi : l[i]? = some a) (hj : l[j]? = some b) :
    l = l.take i ++ a :: (l.drop (i + 1)).take (j - i - 1) ++ b :: l.drop (j + 1) := by
  have hjl : j < l.length := by
    rcases List.getElem?_eq_some_iff.mp hj with ⟨h, _⟩; exact h
  have hil : i < l.length := by omega
  have ha : l[i] = a := by
    rcases List.getElem?_eq_some_iff.mp hi with ⟨_, h⟩; exact h
  have hb : l[j] = b := by
    rcases List.getElem?_eq_some_iff.mp hj with ⟨_, h⟩; exact h
  have h1 : l = l.take i ++ l.drop i := (List.take_append_drop i l).symm
  have h2 : l.drop i = a :: l.drop (i + 1) := by
    rw [List.drop_eq_getElem_cons hil, ha]
  have h3 : l.drop (i + 1) = (l.drop (i + 1)).take (j - i - 1) ++ (l.drop (i + 1)).drop (j - i - 1) :=
    (List.take_append_drop _ _).symm
  have h4 : (l.drop (i + 1)).drop (j - i - 1) = l.drop j := by
    rw [List.drop_drop]; congr 1; omega
  have h5 : l.drop j = b :: l.drop (j + 1) := by
    rw [List.drop_eq_getElem_cons hjl, hb]
  calc l = l.take i ++ l.drop i := h1
    _ = l.take i ++ a :: l.drop (i + 1) := by rw [h2]
    _ = l.take i ++ a :: ((l.drop (i + 1)).take (j - i - 1) ++ l.drop j) := by
        rw [← h4, ← h3]
    _ = l.take i ++ a :: (l.drop (i + 1)).take (j - i - 1) ++ b :: l.drop (j + 1) := by
        rw [h5]; simp

theorem flatMap_split_two {α β : Type} (c : α → List β) (l : List α) (i j : Nat) (a b : α)
    (hij : i < j) (hi : l[i]? = some a) (hj : l[j]? = some b) :
    ∃ before between after : List α,
      l = before ++ a :: between ++ b :: after ∧ before.length = i ∧
      l.flatMap c = before.flatMap c ++ c a ++ between.flatMap c ++ c b ++ after.flatMap c := by
  have hsplit := split_at_two l i j a b hij hi hj
  refine ⟨l.take i, (l.drop (i + 1)).take (j - i - 1), l.drop (j + 1), hsplit, ?_, ?_⟩
  · have : i < l.length := by
      rcases List.getElem?_eq_some_iff.mp hi with ⟨h, _⟩; exact h
    rw [List.length_take]; omega
  · conv_lhs => rw [hsplit]
    simp only [List.flatMap_append, List.flatMap_cons, List.append_assoc]

/-! ## Rendering in table order -/

/-- C1: when `parse` succeeds on a record, the phrase is the concatenation, in the
table order TIME_ON, BAND, MODE, CALL, RST_SENT, RST_RCVD, SIG_INFO, COMMENT,
OPERATOR, of the contributions of exactly the rules whose key occurs in the record
(each of them the output of that rule's loop body); so when the keys of rules
`i < j` both occur, the contribution of rule `i` stands before that of rule `j`,
wherever the two fields are in the record. -/
theorem parse_phrase_in_table_order (record phrase : Bytes)
    (h : parse record = .ret phrase none) :
    fields.map (·.key) =
        [str "<TIME_ON:", str "<BAND:", str "<MODE:", str "<CALL:", str "<RST_SENT:",
          str "<RST_RCVD:", str "<SIG_INFO:", str "<COMMENT:", str "<OPERATOR:"] ∧
      phrase = (fields.filter (keyOccurs record)).flatMap (contribution record) ∧
      (∀ f ∈ fields, parseField record f [] = .next (contribution record f)) ∧
      ∀ (i j : Nat) (fi fj : fieldInfo), i < j → fields[i]? = some fi → fields[j]? = some fj →
        keyOccurs record fi = true → keyOccurs record fj = true →
        ∃ before between after : List fieldInfo,
          fields = before ++ fi :: between ++ fj :: after ∧ before.length = i ∧
          phrase = before.flatMap (contribution record) ++ contribution record fi ++
            between.flatMap (contribution record) ++ contribution record fj ++
            after.flatMap (contribution record) := by
  obtain ⟨h1, h2⟩ := parseLoop_ret record fields [] phrase h
  have hall : phrase = fields.flatMap (contribution record) := by
    rw [h1]; exact List.nil_append _
  refine ⟨by rfl, ?_, h2, ?_⟩
  · rw [flatMap_filter_keyOccurs]; exact hall
  · intro i j fi fj hij hi hj _ _
    rw [hall]
    exact flatMap_split_two (contribution record) fields i j fi fj hij hi hj

/-- C1, at the record `<CALL:5>AB1CD<TIME_ON:4>1230`, whose fields stand in the
opposite order of the table: the phrase is `time 1230 station A B 1 C D `. -/
theorem parse_phrase_in_table_order_witness :
    parse (str "<CALL:5>AB1CD<TIME_ON:4>1230") = .ret (str "time 1230 station A B 1 C D ") none ∧
      str "time 1230 station A B 1 C D " =
        (fields.filter (keyOccurs (str "<CALL:5>AB1CD<TIME_ON:4>1230"))).flatMap
          (contribution (str "<CALL:5>AB1CD<TIME_ON:4>1230")) ∧
      contribution (str "<CALL:5>AB1CD<TIME_ON:4>1230") ruleTimeOn = str "time 1230 " ∧
      contribution (str "<CALL:5>AB1CD<TIME_ON:4>1230") ruleCall = str "station A B 1 C D " :=
  ⟨by decide,
    (parse_phrase_in_table_order (str "<CALL:5>AB1CD<TIME_ON:4>1230")
      (str "time 1230 station A B 1 C D ") (by decide)).2.1,
    by decide, by decide⟩

/-! ## The examples of the specification -/

/-- C2, as stated, fails: on the line
`<QSO_DATE:8>20230115><TIME_ON:4>1230><BAND:4>20m><MODE:3>SSB><CALL:5>AB1CD>`
it is not the case that `read` returns one entry and `parse` renders the line to
`time 1230 band 20 meters mode SSB station A B 1 C D `. -/
theorem end_to_end_not_as_stated :
    ¬ ((∃ r, read ⟨str "<QSO_DATE:8>20230115><TIME_ON:4>1230><BAND:4>20m><MODE:3>SSB><CALL:5>AB1CD>",
          none⟩ = .ret [r] none) ∧
        parse (str "<QSO_DATE:8>20230115><TIME_ON:4>1230><BAND:4>20m><MODE:3>SSB><CALL:5>AB1CD>") =
          .ret (str "time 1230 band 20 meters mode SSB station A B 1 C D ") none) := by
  intro h
  exact absurd h.2 (by decide)

set_option maxRecDepth 100000 in
/-- C2, amended: on that line, with or without a final newline, `read` returns no
error and exactly one entry, and both that entry and the result of `parse` on the
line are `time 1230 band 20m  meters  mode SSB station A B 1 C D `: the four bytes
declared for BAND are `20m>`, of which the last is dropped, and the suffix
` meters ` is written between the space after the value and one more space. -/
theorem end_to_end_scenario :
    read ⟨str "<QSO_DATE:8>20230115><TIME_ON:4>1230><BAND:4>20m><MODE:3>SSB><CALL:5>AB1CD>",
        none⟩ =
        .ret [str "time 1230 band 20m  meters  mode SSB station A B 1 C D "] none ∧
      read ⟨str "<QSO_DATE:8>20230115><TIME_ON:4>1230><BAND:4>20m><MODE:3>SSB><CALL:5>AB1CD>\n",
        none⟩ =
        .ret [str "time 1230 band 20m  meters  mode SSB station A B 1 C D "] none ∧
      parse (str "<QSO_DATE:8>20230115><TIME_ON:4>1230><BAND:4>20m><MODE:3>SSB><CALL:5>AB1CD>") =
        .ret (str "time 1230 band 20m  meters  mode SSB station A B 1 C D ") none := by
  refine ⟨by decide, by decide, by decide⟩

/-- C3, as stated, fails: `parse` does not render `<BAND:4>20m>` as
`band 20 meters `. -/
theorem band_truncation_not_as_stated :
    parse (str "<BAND:4>20m>") ≠ .ret (str "band 20 meters ") none := by
  decide

/-- C3, amended: `parse` renders `<BAND:4>20m>` as `band 20m  meters  `, the value
being the four declared bytes `20m>` without the last one, and `<BAND:3>20m` as
`band 20  meters  `, the trailing `m` dropped; in both the suffix ` meters ` stands
between the space written after the value and the space written after the suffix. -/
theorem band_truncation :
    parse (str "<BAND:4>20m>") = .ret (str "band 20m  meters  ") none ∧
      parse (str "<BAND:3>20m") = .ret (str "band 20  meters  ") none ∧
      decodeField (str "<BAND:4>20m>") ruleBand = .data (str "20m>") ∧
      decodeField (str "<BAND:3>20m") ruleBand = .data (str "20m") := by
  refine ⟨by decide, by decide, by decide, by decide⟩

/-- C6, at its own example: on `<TIME_ON:9>1230>` the slice
`record[dataIdxStart:dataIdxEnd]` is `record[11:20]` in a record of 16 bytes, and
`parse` panics instead of returning an error. -/
theorem bounds_failure_panics :
    parse (str "<TIME_ON:9>1230>") = .panic ∧
      (∀ phrase err, parse (str "<TIME_ON:9>1230>") ≠ .ret phrase err) := by
  have h : parse (str "<TIME_ON:9>1230>") = .panic := by decide
  refine ⟨h, ?_⟩
  intro phrase err
  rw [h]
  exact fun h2 => Outcome.noConfusion h2

/-- C8, at its own example: on `<MODE:-1>SSB` the literal `-1` is accepted by
`strconv.Atoi`, the slice `record[9:8]` is out of range and `parse` panics instead
of returning an error. -/
theorem negative_length_panics :
    Atoi (str "-1") = .ok (-1) ∧ parse (str "<MODE:-1>SSB") = .panic ∧
      (∀ phrase err, parse (str "<MODE:-1>SSB") ≠ .ret phrase err) := by
  have h : parse (str "<MODE:-1>SSB") = .panic := by decide
  refine ⟨by rfl, h, ?_⟩
  intro phrase err
  rw [h]
  exact fun h2 => Outcome.noConfusion h2

/-! ## Missing fields -/

/-- C9: a record in which none of the nine keys occurs renders as the empty phrase
with no error, whatever else it holds; and on every record `parse` gives what the
table restricted to the rules whose key occurs in the record gives. -/
theorem missing_fields_contribute_nothing (record : Bytes) :
    ((∀ f ∈ fields, keyOccurs record f = false) → parse record = .ret [] none) ∧
      parse record = parseWith (fields.filter (keyOccurs record)) record := by
  have h2 : parse record = parseWith (fields.filter (keyOccurs record)) record :=
    parseLoop_filter record fields []
  refine ⟨?_, h2⟩
  intro h
  rw [h2]
  have : fields.filter (keyOccurs record) = [] := by
    rw [List.filter_eq_nil_iff]
    intro f hf
    rw [h f hf]
    exact Bool.false_ne_true
  rw [this]
  rfl

/-- C9, at the records `<QSO_DATE:8>20230115` and `<FOO:xx>bar`: both render as the
empty phrase with no error. -/
theorem missing_fields_contribute_nothing_witness :
    parse (str "<QSO_DATE:8>20230115") = .ret [] none ∧
      parse (str "<FOO:xx>bar") = .ret [] none :=
  ⟨(missing_fields_contribute_nothing (str "<QSO_DATE:8>20230115")).1 (by decide),
    (missing_fields_contribute_nothing (str "<FOO:xx>bar")).1 (by decide)⟩

/-- C10, as stated, fails: `parse` succeeds on `<COMMENT:4>time`, the key of the
TIME_ON rule does not occur in it, and the phrase `comment time ` contains that
rule's spoken label `time`. -/
theorem absent_label_can_occur :
    ¬ ∀ (record phrase : Bytes) (f : fieldInfo), parse record = .ret phrase none →
        f ∈ fields → keyOccurs record f = false →
        occursIn f.spoken phrase = false ∧ occursIn f.suffix phrase = false := by
  intro h
  have h1 := h (str "<COMMENT:4>time") (str "comment time ") ruleTimeOn (by decide)
    (by decide) (by decide)
  exact absurd h1.1 (by decide)

/-- C10, amended: a rule of the table whose key does not occur in the record
contributes nothing: `parse` gives what the table without that rule gives, and a
phrase it returns is the concatenation of the contributions of the other rules. -/
theorem absent_rule_contributes_nothing (record : Bytes) (before after : List fieldInfo)
    (f : fieldInfo) (htable : fields = before ++ f :: after)
    (habsent : keyOccurs record f = false) :
    parse record = parseWith (before ++ after) record ∧
      ∀ phrase, parse record = .ret phrase none →
        phrase = (before ++ after).flatMap (contribution record) := by
  have h1 : parse record = parseWith (before ++ after) record := by
    unfold parse parseWith
    rw [htable]
    exact parseLoop_remove record before after f [] habsent
  refine ⟨h1, ?_⟩
  intro phrase hp
  rw [h1] at hp
  have := (parseLoop_ret record (before ++ after) [] phrase hp).1
  rw [this]
  exact List.nil_append _

/-- C10, amended, at the record `<COMMENT:4>time` and the TIME_ON rule, the first of the
table. -/
theorem absent_rule_contributes_nothing_witness :
    parse (str "<COMMENT:4>time") = parseWith fields.tail (str "<COMMENT:4>time") :=
  (absent_rule_contributes_nothing (str "<COMMENT:4>time") [] fields.tail ruleTimeOn
    (by rfl) (by decide)).1

/-! ## Library facts -/

theorem wrap64_eq (x : Int) (h1 : -2 ^ 63 ≤ x) (h2 : x < 2 ^ 63) : wrap64 x = x := by
  unfold wrap64
  omega

theorem endMark_eq : endMark = [0x3E] := by rfl

theorem HasPrefix_append (p t : Bytes) : HasPrefix (p ++ t) p = true := by
  induction p with
  | nil => cases t <;> rfl
  | cons c p ih => simp [HasPrefix, ih]

theorem HasPrefix_eq (s p : Bytes) (h : HasPrefix s p = true) : s = p ++ s.drop p.length := by
  induction p generalizing s with
  | nil => simp
  | cons c p ih =>
    cases s with
    | nil => simp [HasPrefix] at h
    | cons d s =>
      simp only [HasPrefix, Bool.and_eq_true, decide_eq_true_eq] at h
      obtain ⟨h1, h2⟩ := h
      have := ih s h2
      simp only [List.length_cons, List.drop_succ_cons, List.cons_append]
      rw [← this, h1]

theorem indexOf_some (substr s : Bytes) (i : Nat) (h : indexOf substr s = some i) :
    i + substr.length ≤ s.length ∧ s.drop i = substr ++ s.drop (i + substr.length) := by
  induction s generalizing i with
  | nil =>
    simp only [indexOf] at h
    split at h
    · rename_i h0
      simp at h
      subst h; subst h0
      simp
    · simp at h
  | cons c s ih =>
    simp only [indexOf] at h
    split at h
    · rename_i hp
      simp at h
      subst h
      have h1 := HasPrefix_eq _ _ hp
      have h2 : substr.length ≤ (c :: s).length := by
        have := congrArg List.length h1
        simp only [List.length_append] at this
        omega
      refine ⟨by simpa using h2, ?_⟩
      simpa using h1
    · cases h3 : indexOf substr s with
      | none => simp [h3] at h
      | some j =>
        simp [h3] at h
        subst h
        obtain ⟨h4, h5⟩ := ih j h3
        refine ⟨by simp; omega, ?_⟩
        have : j + 1 + substr.length = (j + substr.length) + 1 := by omega
        rw [this]
        simpa using h5

theorem indexOf_endMark_append (p t : Bytes) (hp : 0x3E ∉ p) :
    indexOf [0x3E] (p ++ t) = (indexOf [0x3E] t).map (· + p.length) := by
  induction p with
  | nil => simp
  | cons c p ih =>
    have hc : c ≠ 0x3E := fun h => hp (by simp [h])
    have hp2 : 0x3E ∉ p := fun h => hp (by simp [h])
    have h1 : indexOf [0x3E] (c :: (p ++ t)) = (indexOf [0x3E] (p ++ t)).map (· + 1) := by
      simp [indexOf, HasPrefix, hc]
    rw [List.cons_append, h1, ih hp2]
    cases indexOf [0x3E] t with
    | none => rfl
    | some k => simp only [Option.map_some', List.length_cons]; congr 1

theorem indexOf_endMark_lt (s : Bytes) (k : Nat) (h : indexOf [0x3E] s = some k) :
    k < s.length := by
  have := (indexOf_some _ _ _ h).1
  simp at this
  omega

theorem slice_eq (s : Bytes) (lo n : Nat) (h : lo + n ≤ s.length) :
    slice s (lo : Int) ((lo : Int) + (n : Int)) = some ((s.drop lo).take n) := by
  unfold slice len
  have h1 : (0 : Int) ≤ (lo : Int) ∧ (lo : Int) ≤ (lo : Int) + (n : Int) ∧
      (lo : Int) + (n : Int) ≤ (s.length : Int) := by omega
  rw [if_pos h1]
  have h2 : ((lo : Int)).toNat = lo := by omega
  have h3 : ((lo : Int) + (n : Int) - (lo : Int)).toNat = n := by omega
  rw [h2, h3]

theorem sliceFrom_eq (s : Bytes) (lo : Nat) (h : lo ≤ s.length) :
    sliceFrom s (lo : Int) = some (s.drop lo) := by
  unfold sliceFrom len
  have h1 : ((s.length : Nat) : Int) = (lo : Int) + ((s.length - lo : Nat) : Int) := by omega
  rw [h1, slice_eq s lo (s.length - lo) (by omega)]
  congr 1
  apply List.take_of_length_le
  simp

theorem decodeField_located (record : Bytes) (field : fieldInfo) (loc : Located)
    (hlen : record.length < 2 ^ 63) (hkey : 0x3E ∉ field.key)
    (hloc : locate record field = some loc) :
    decodeField record field = decodeRest record (loc.valueAt : Int) (Atoi loc.literal) := by
  unfold locate at hloc
  cases hi : indexOf field.key record with
  | none => simp [hi] at hloc
  | some i =>
    cases hk : indexOf endMark (record.drop (i + field.key.length)) with
    | none => simp [hi, hk] at hloc
    | some k =>
      simp only [hi, hk, Option.some.injEq] at hloc
      subst hloc
      obtain ⟨hi1, hi2⟩ := indexOf_some _ _ _ hi
      rw [endMark_eq] at hk
      have hkl := indexOf_endMark_lt _ _ hk
      rw [List.length_drop] at hkl
      have hI : Index record field.key = (i : Int) := by simp [Index, hi]
      have hne : ¬ ((i : Int) = -1) := by omega
      have hsf : sliceFrom record (i : Int) = some (record.drop i) :=
        sliceFrom_eq record i (by omega)
      have hI2 : Index (record.drop i) endMark = ((k + field.key.length : Nat) : Int) := by
        rw [hi2, endMark_eq]
        simp [Index, indexOf_endMark_append _ _ hkey, hk]
      have hend : add64 ((k + field.key.length : Nat) : Int) (i : Int) =
          ((i + field.key.length : Nat) : Int) + (k : Int) := by
        unfold add64
        rw [wrap64_eq] <;> omega
      have hstart : add64 (i : Int) (len field.key) = ((i + field.key.length : Nat) : Int) := by
        unfold add64 len
        rw [wrap64_eq] <;> omega
      have hlit : slice record ((i + field.key.length : Nat) : Int)
          (((i + field.key.length : Nat) : Int) + (k : Int)) =
          some ((record.drop (i + field.key.length)).take k) :=
        slice_eq record (i + field.key.length) k (by omega)
      have hlitlen : len ((record.drop (i + field.key.length)).take k) = (k : Int) := by
        unfold len
        rw [List.length_take, List.length_drop]
        omega
      have hds : add64 (add64 ((i + field.key.length : Nat) : Int) (k : Int)) (len endMark) =
          ((i + field.key.length + k + 1 : Nat) : Int) := by
        rw [endMark_eq]
        unfold add64 len
        rw [wrap64_eq (((i + field.key.length : Nat) : Int) + (k : Int))] <;>
          first
          | (rw [wrap64_eq] <;> simp <;> omega)
          | omega
      simp only [decodeField, hI, hne, if_false, hsf, hI2, hend, hstart, hlit, hlitlen, hds]
      cases Atoi (List.take k (List.drop (i + field.key.length) record)) with
      | error e => rfl
      | ok dl =>
        simp only [decodeRest]
        cases slice record ((i + field.key.length + k + 1 : Nat) : Int)
          (add64 ((i + field.key.length + k + 1 : Nat) : Int) dl) with
        | none => rfl
        | some raw => rfl

theorem atoiDigits_all (s : Bytes) (n : Nat) (h : s.all isDigit = true) :
    atoiDigits s n = some (decimal s n) := by
  induction s generalizing n with
  | nil => rfl
  | cons c s ih =>
    simp only [List.all_cons, Bool.and_eq_true] at h
    have hc : 0x30 ≤ c ∧ c ≤ 0x39 := by simpa [isDigit] using h.1
    simp only [atoiDigits, hc, and_self, if_true, decimal, List.foldl_cons]
    exact ih _ h.2

theorem atoiDigits_not_all (s : Bytes) (n : Nat) (h : s.all isDigit = false) :
    atoiDigits s n = none := by
  induction s generalizing n with
  | nil => simp at h
  | cons c s ih =>
    by_cases hc : 0x30 ≤ c ∧ c ≤ 0x39
    · have hd : isDigit c = true := by simpa [isDigit] using hc
      have hs : s.all isDigit = false := by
        simpa [List.all_cons, hd] using h
      simp only [atoiDigits, hc, and_self, if_true]
      exact ih _ hs
    · simp only [atoiDigits, hc, if_false]

theorem le_decimal (s : Bytes) (n : Nat) : n ≤ decimal s n := by
  induction s generalizing n with
  | nil => exact Nat.le_refl _
  | cons c s ih =>
    have := ih (n * 10 + (c - 0x30))
    simp only [decimal, List.foldl_cons] at this ⊢
    omega

theorem parseUintDigits_all (s : Bytes) (n : Nat) (h : s.all isDigit = true)
    (hmax : decimal s n ≤ 2 ^ 64 - 1) : parseUintDigits s n = .ok (decimal s n) := by
  induction s generalizing n with
  | nil => rfl
  | cons c s ih =>
    simp only [List.all_cons, Bool.and_eq_true] at h
    have hc : 0x30 ≤ c ∧ c ≤ 0x39 := by simpa [isDigit] using h.1
    have hstep : decimal (c :: s) n = decimal s (n * 10 + (c - 0x30)) := rfl
    rw [hstep] at hmax ⊢
    have hge := le_decimal s (n * 10 + (c - 0x30))
    have h1 : ¬ (n ≥ (2 ^ 64 - 1) / 10 + 1) := by
      norm_num at hmax ⊢
      omega
    have h2 : ¬ (n * 10 + (c - 0x30) > 2 ^ 64 - 1) := by
      norm_num at hmax ⊢
      omega
    simp only [parseUintDigits, hc, and_self, if_true, h1, h2, if_false]
    exact ih _ h.2 hmax

theorem parseUintDigits_not_all (s : Bytes) (n : Nat) (h : s.all isDigit = false) :
    ∃ k, parseUintDigits s n = .error k := by
  induction s generalizing n with
  | nil => simp at h
  | cons c s ih =>
    by_cases hc : 0x30 ≤ c ∧ c ≤ 0x39
    · have hd : isDigit c = true := by simpa [isDigit] using hc
      have hs : s.all isDigit = false := by
        simpa [List.all_cons, hd] using h
      simp only [parseUintDigits, hc, and_self, if_true]
      split
      · exact ⟨_, rfl⟩
      · split
        · exact ⟨_, rfl⟩
        · exact ih _ hs
    · exact ⟨.ErrSyntax, by simp only [parseUintDigits, hc, if_false]⟩

theorem Atoi_decimal (lit : Bytes) (n : Nat) (h : decimalValue lit = some n)
    (hn : n < 2 ^ 63) : Atoi lit = .ok (n : Int) := by
  unfold decimalValue at h
  split at h
  · rename_i hd
    obtain ⟨hne, hall⟩ := hd
    simp only [Option.some.injEq] at h
    cases lit with
    | nil => exact absurd rfl hne
    | cons c t =>
      have hc : 0x30 ≤ c ∧ c ≤ 0x39 := by
        have : isDigit c = true := by
          simp only [List.all_cons, Bool.and_eq_true] at hall
          exact hall.1
        simpa [isDigit] using this
      have hs43 : ¬ (c = 43) := by omega
      have hs45 : ¬ (c = 45) := by omega
      unfold Atoi
      split
      · simp [hs43, hs45, atoiDigits_all _ 0 hall, h]
      · have hmax : decimal (c :: t) 0 ≤ 2 ^ 64 - 1 := by
          rw [h]; norm_num at hn ⊢; omega
        have hpu := parseUintDigits_all (c :: t) 0 hall hmax
        have hun1 : ¬ (9223372036854775808 ≤ n) := by omega
        simp [ParseInt, hs43, hs45, hpu, h, hun1]
  · simp at h

theorem Atoi_not_integer (lit : Bytes) (h : isBase10Integer lit = false) :
    ∃ kind, Atoi lit = .error ⟨"Atoi", lit, kind⟩ := by
  cases lit with
  | nil => exact ⟨.ErrSyntax, by rfl⟩
  | cons c t =>
    simp only [isBase10Integer] at h
    unfold Atoi
    by_cases hsign : c = 0x2B ∨ c = 0x2D
    · have hsign2 : c = 0x2D ∨ c = 0x2B := by omega
      rw [if_pos hsign] at h
      split
      · cases t with
        | nil => exact ⟨.ErrSyntax, by simp [hsign2]⟩
        | cons d t =>
          have hall : (d :: t).all isDigit = false := by simpa using h
          refine ⟨.ErrSyntax, ?_⟩
          simp [hsign2, atoiDigits_not_all _ 0 hall]
      · cases t with
        | nil => exact ⟨.ErrSyntax, by simp [ParseInt, hsign]⟩
        | cons d t =>
          have hall : (d :: t).all isDigit = false := by simpa using h
          obtain ⟨k, hk⟩ := parseUintDigits_not_all (d :: t) 0 hall
          refine ⟨k, ?_⟩
          cases k <;> simp [ParseInt, hsign, hk]
    · have hsign2 : ¬ (c = 0x2D ∨ c = 0x2B) := by omega
      rw [if_neg hsign] at h
      split
      · refine ⟨.ErrSyntax, ?_⟩
        simp [hsign2, atoiDigits_not_all _ 0 h]
      · obtain ⟨k, hk⟩ := parseUintDigits_not_all (c :: t) 0 h
        refine ⟨k, ?_⟩
        cases k <;> simp [ParseInt, hsign, hk]

theorem trimLeftSpace_length (fuel : Nat) (s : Bytes) :
    (trimLeftSpace fuel s).length ≤ s.length := by
  induction fuel generalizing s with
  | zero => simp [trimLeftSpace]
  | succ fuel ih =>
    cases s with
    | nil => simp [trimLeftSpace]
    | cons b s =>
      simp only [trimLeftSpace]
      split
      · have := ih ((b :: s).drop (DecodeRune (b :: s)).2)
        have h2 := List.length_drop (DecodeRune (b :: s)).2 (b :: s)
        omega
      · exact Nat.le_refl _

theorem trimRightSpace_length (fuel : Nat) (s : Bytes) :
    (trimRightSpace fuel s).length ≤ s.length := by
  induction fuel generalizing s with
  | zero => simp [trimRightSpace]
  | succ fuel ih =>
    simp only [trimRightSpace]
    split
    · have := ih (s.take (s.length - (DecodeLastRune s).2))
      have h2 := List.length_take (s.length - (DecodeLastRune s).2) s
      omega
    · exact Nat.le_refl _

theorem TrimSpace_length (s : Bytes) : (TrimSpace s).length ≤ s.length := by
  unfold TrimSpace
  have h1 := trimLeftSpace_length s.length s
  have h2 := trimRightSpace_length (trimLeftSpace s.length s).length (trimLeftSpace s.length s)
  simp only []
  omega

theorem EncodeRune_space : EncodeRune 0x20 = [0x20] := by rfl

theorem writeSuffix_eq (field : fieldInfo) (response : Bytes) :
    writeSuffix field response =
      response ++ (if field.suffix = [] then [] else field.suffix ++ [0x20]) := by
  unfold writeSuffix WriteRune WriteString len
  cases hs : field.suffix with
  | nil => simp
  | cons c t =>
    have : (0 : Int) < ((c :: t).length : Int) := by simp
    simp [this, EncodeRune_space]

theorem writeField_eq (field : fieldInfo) (data response : Bytes)
    (hlen : data.length < 2 ^ 63)
    (hok : field.spaced = true ∨
      (0 ≤ field.truncateTrailingN ∧ field.truncateTrailingN ≤ len data)) :
    writeField field data response = some (response ++ render field data) := by
  unfold writeField writeValue render renderValue
  by_cases hs : field.spaced = true
  · simp only [hs, if_true, writeSpaced_eq, writeSuffix_eq, WriteRune, WriteString,
      EncodeRune_space]
    simp
  · have hs2 : field.spaced = false := by simpa using hs
    rcases hok with h | ⟨h0, h1⟩
    · exact absurd h hs
    · unfold len at h1
      have hsub : sub64 (len data) field.truncateTrailingN =
          ((0 : Nat) : Int) + ((data.length - field.truncateTrailingN.toNat : Nat) : Int) := by
        unfold sub64 len
        rw [wrap64_eq] <;> omega
      have hsl : sliceTo data (sub64 (len data) field.truncateTrailingN) =
          some (data.take (data.length - field.truncateTrailingN.toNat)) := by
        unfold sliceTo
        rw [hsub]
        have := slice_eq data 0 (data.length - field.truncateTrailingN.toNat) (by omega)
        simpa using this
      simp only [hs2, hsl, writeSuffix_eq, WriteRune, WriteString, EncodeRune_space]
      simp

theorem rawValue_some (record : Bytes) (field : fieldInfo) (raw : Bytes)
    (h : rawValue record field = some raw) :
    ∃ loc n, locate record field = some loc ∧ decimalValue loc.literal = some n ∧
      loc.valueAt + n ≤ record.length ∧ raw = (record.drop loc.valueAt).take n := by
  unfold rawValue at h
  cases hl : locate record field with
  | none => simp [hl] at h
  | some loc =>
    cases hd : decimalValue loc.literal with
    | none => simp [hl, hd] at h
    | some n =>
      simp only [hl, hd] at h
      split at h
      · rename_i hb
        exact ⟨loc, n, rfl, hd, hb, by simpa using h.symm⟩
      · simp at h

theorem decodeField_rawValue (record : Bytes) (field : fieldInfo) (raw : Bytes)
    (hlen : record.length < 2 ^ 63) (hkey : 0x3E ∉ field.key)
    (h : rawValue record field = some raw) :
    decodeField record field = .data (TrimSpace raw) := by
  obtain ⟨loc, n, hloc, hdec, hb, hraw⟩ := rawValue_some record field raw h
  subst hraw
  have hn : n < 2 ^ 63 := by omega
  have hadd : add64 (loc.valueAt : Int) (n : Int) = (loc.valueAt : Int) + (n : Int) := by
    unfold add64
    rw [wrap64_eq] <;> omega
  rw [decodeField_located record field loc hlen hkey hloc, Atoi_decimal loc.literal n hdec hn,
    decodeRest, hadd, slice_eq record loc.valueAt n hb, decodeSlice]

theorem rawValue_length (record : Bytes) (field : fieldInfo) (raw : Bytes)
    (h : rawValue record field = some raw) : raw.length ≤ record.length := by
  obtain ⟨loc, n, _, _, hb, hraw⟩ := rawValue_some record field raw h
  rw [hraw, List.length_take, List.length_drop]
  omega

theorem parseField_rawValue (record : Bytes) (field : fieldInfo) (raw response : Bytes)
    (hlen : record.length < 2 ^ 63) (hkey : 0x3E ∉ field.key)
    (h : rawValue record field = some raw)
    (hok : field.spaced = true ∨
      (0 ≤ field.truncateTrailingN ∧ field.truncateTrailingN ≤ len (TrimSpace raw))) :
    parseField record field response = .next (response ++ render field (TrimSpace raw)) := by
  have hl1 := rawValue_length record field raw h
  have hl2 := TrimSpace_length raw
  unfold parseField
  rw [decodeField_rawValue record field raw hlen hkey h]
  simp only [writeField_eq field (TrimSpace raw) response (by omega) hok]

theorem parseField_wellFormed (record : Bytes) (field : fieldInfo) (response : Bytes)
    (hlen : record.length < 2 ^ 63) (hkey : 0x3E ∉ field.key)
    (h : wellFormed record field = true) :
    ∃ c, parseField record field response = .next (response ++ c) := by
  unfold wellFormed at h
  cases hr : rawValue record field with
  | none => simp [hr] at h
  | some raw =>
    simp only [hr, Bool.or_eq_true, decide_eq_true_eq] at h
    exact ⟨_, parseField_rawValue record field raw response hlen hkey hr h⟩

theorem keys_without_endMark : ∀ f ∈ fields, 0x3E ∉ f.key := by
  have h : fields.all (fun f => !f.key.contains 0x3E) = true := by rfl
  intro f hf
  have := List.all_eq_true.mp h f hf
  simpa using this

theorem rangeRunes_ascii (fuel : Nat) (s : Bytes) (hfuel : s.length ≤ fuel)
    (h : ∀ b ∈ s, b < 0x80) : rangeRunes fuel s = s := by
  induction fuel generalizing s with
  | zero =>
    cases s with
    | nil => rfl
    | cons b s => simp at hfuel
  | succ fuel ih =>
    cases s with
    | nil => rfl
    | cons b s =>
      have hb : b < 0x80 := h b (by simp)
      have hd : DecodeRune (b :: s) = (b, 1) := by simp [DecodeRune, hb]
      simp only [rangeRunes, hd, List.drop_succ_cons, List.drop_zero]
      rw [ih s (by simpa using hfuel) (fun c hc => h c (by simp [hc]))]

theorem spelled_ascii (data : Bytes) (h : ∀ b ∈ data, b < 0x80) :
    (runes data).flatMap (fun r => EncodeRune r ++ [0x20]) =
      data.flatMap (fun b => [b, 0x20]) := by
  unfold runes
  rw [rangeRunes_ascii data.length data (Nat.le_refl _) h]
  induction data with
  | nil => rfl
  | cons b s ih =>
    have hb : b < 0x80 := h b (by simp)
    simp only [List.flatMap_cons, ih (fun c hc => h c (by simp [hc]))]
    simp [EncodeRune, hb]

theorem spaced_rules : ∀ f ∈ fields, f.spaced = true →
    f.suffix = [] ∧ (f.key = str "<CALL:" ∨ f.key = str "<OPERATOR:") := by
  have h : fields.all (fun f => !f.spaced ||
      (decide (f.suffix = []) &&
        (decide (f.key = str "<CALL:") || decide (f.key = str "<OPERATOR:")))) = true := by rfl
  intro f hf hs
  have := List.all_eq_true.mp h f hf
  simpa [hs] using this

theorem parseLoop_skip (record : Bytes) (before rest : List fieldInfo) (response : Bytes)
    (hlen : record.length < 2 ^ 63) (hkeys : ∀ g ∈ before, 0x3E ∉ g.key)
    (h : ∀ g ∈ before, keyOccurs record g = false ∨ wellFormed record g = true) :
    ∃ out, parseLoop record (before ++ rest) response = parseLoop record rest out := by
  induction before generalizing response with
  | nil => exact ⟨response, rfl⟩
  | cons g before ih =>
    have hk := hkeys g (by simp)
    have ih2 := fun r => ih r (fun x hx => hkeys x (by simp [hx])) (fun x hx => h x (by simp [hx]))
    rcases h g (by simp) with hg | hg
    · obtain ⟨out, ho⟩ := ih2 response
      refine ⟨out, ?_⟩
      simp only [List.cons_append, parseLoop, parseField_absent record g response hg]
      exact ho
    · obtain ⟨c, hc⟩ := parseField_wellFormed record g response hlen hk hg
      obtain ⟨out, ho⟩ := ih2 (response ++ c)
      refine ⟨out, ?_⟩
      simp only [List.cons_append, parseLoop, hc]
      exact ho

/-! ## Decoding and rendering of one field -/

/-- C4, at the record `<BAND:0>`: the length literal `0` is well formed and within
bounds, the decoded value is empty, the slice `data[:len(data)-1]` is `data[:-1]`,
and `parse` panics instead of rendering a contribution for the BAND rule. -/
theorem contiguous_rendering_panics_on_empty_band :
    rawValue (str "<BAND:0>") ruleBand = some [] ∧
      decodeField (str "<BAND:0>") ruleBand = .data [] ∧
      ruleBand ∈ fields ∧ ruleBand.spaced = false ∧
      writeField ruleBand [] [] = none ∧
      parse (str "<BAND:0>") = .panic := by
  refine ⟨by decide, by decide, by decide, by decide, by decide, by decide⟩

/-- C5: when the key of a spaced rule of the table (CALL or OPERATOR) occurs in a
record with a decimal length literal whose value lies within the record, the loop
body appends the spoken label, one space, and every rune of the trimmed value
followed by one space, nothing being truncated; when the trimmed value is ASCII
these are its bytes, each followed by one space. -/
theorem spaced_rendering (record : Bytes) (f : fieldInfo) (raw : Bytes)
    (hlen : record.length < 2 ^ 63) (hf : f ∈ fields) (hsp : f.spaced = true)
    (hraw : rawValue record f = some raw) :
    (f.key = str "<CALL:" ∨ f.key = str "<OPERATOR:") ∧
      (∀ response, parseField record f response =
        .next (response ++ (f.spoken ++ [0x20] ++
          (runes (TrimSpace raw)).flatMap (fun r => EncodeRune r ++ [0x20])))) ∧
      contribution record f = f.spoken ++ [0x20] ++
        (runes (TrimSpace raw)).flatMap (fun r => EncodeRune r ++ [0x20]) ∧
      ((∀ b ∈ TrimSpace raw, b < 0x80) →
        contribution record f = f.spoken ++ [0x20] ++
          (TrimSpace raw).flatMap (fun b => [b, 0x20])) := by
  obtain ⟨hsuf, hkey⟩ := spaced_rules f hf hsp
  have hk := keys_without_endMark f hf
  have hrender : render f (TrimSpace raw) = f.spoken ++ [0x20] ++
      (runes (TrimSpace raw)).flatMap (fun r => EncodeRune r ++ [0x20]) := by
    simp [render, renderValue, hsp, hsuf]
  have hpf : ∀ response, parseField record f response =
      .next (response ++ (f.spoken ++ [0x20] ++
        (runes (TrimSpace raw)).flatMap (fun r => EncodeRune r ++ [0x20]))) := by
    intro response
    rw [parseField_rawValue record f raw response hlen hk hraw (Or.inl hsp), hrender]
  have hc : contribution record f = f.spoken ++ [0x20] ++
      (runes (TrimSpace raw)).flatMap (fun r => EncodeRune r ++ [0x20]) := by
    unfold contribution
    rw [hpf []]
    rfl
  refine ⟨hkey, hpf, hc, ?_⟩
  intro hascii
  rw [hc, spelled_ascii _ hascii]

/-- C5, at the record `<CALL:5>AB1CD>`: the CALL rule contributes
`station A B 1 C D `, which the phrase `parse` returns contains. -/
theorem spaced_rendering_witness :
    contribution (str "<CALL:5>AB1CD>") ruleCall = str "station A B 1 C D " ∧
      parse (str "<CALL:5>AB1CD>") = .ret (str "station A B 1 C D ") none ∧
      parse (str "<TIME_ON:4>1230<CALL:5>AB1CD>") =
        .ret (str "time 1230 station A B 1 C D ") none ∧
      occursIn (str "station A B 1 C D ") (str "time 1230 station A B 1 C D ") = true :=
  ⟨((spaced_rendering (str "<CALL:5>AB1CD>") ruleCall (str "AB1CD") (by decide) (by decide)
      (by decide) (by decide)).2.2.2 (by decide)).trans (by decide),
    by decide, by decide, by decide⟩

/-! ## Failure on a length literal that is not a number -/

/-- C7: when the length literal of a rule of the table (the text between the first
occurrence of its key and the next `>`) is not a base-10 integer, as `xx` or the
empty text, and every rule earlier in the table is absent from the record or well
formed in it, `parse` returns the empty phrase together with the error of
`strconv.Atoi` on that literal. -/
theorem nonnumeric_length_fails (record : Bytes) (before after : List fieldInfo)
    (f : fieldInfo) (loc : Located) (hlen : record.length < 2 ^ 63)
    (htable : fields = before ++ f :: after)
    (hearlier : ∀ g ∈ before, keyOccurs record g = false ∨ wellFormed record g = true)
    (hloc : locate record f = some loc) (hbad : isBase10Integer loc.literal = false) :
    ∃ kind, parse record = .ret [] (some ⟨"Atoi", loc.literal, kind⟩) := by
  have hmem : ∀ g ∈ before ++ f :: after, 0x3E ∉ g.key := by
    rw [← htable]
    exact keys_without_endMark
  have hkeys : ∀ g ∈ before, 0x3E ∉ g.key := fun g hg => hmem g (by simp [hg])
  have hk : 0x3E ∉ f.key := hmem f (by simp)
  obtain ⟨kind, hkind⟩ := Atoi_not_integer loc.literal hbad
  obtain ⟨out, hout⟩ := parseLoop_skip record before (f :: after) [] hlen hkeys hearlier
  refine ⟨kind, ?_⟩
  have hd : decodeField record f = .fail ⟨"Atoi", loc.literal, kind⟩ := by
    rw [decodeField_located record f loc hlen hk hloc, hkind, decodeRest]
  have hp : parseField record f out = .exit [] ⟨"Atoi", loc.literal, kind⟩ := by
    unfold parseField
    rw [hd]
  unfold parse parseWith
  rw [htable, hout, parseLoop, hp]

/-- C7, at the records `<MODE:xx>SSB>` and `<TIME_ON:4>1230<MODE:>SSB`: the literal
of the MODE rule is `xx`, respectively empty, the rules TIME_ON and BAND before it
are absent or well formed, and `parse` returns the empty phrase with a syntax
error. -/
theorem nonnumeric_length_fails_witness :
    (∃ kind, parse (str "<MODE:xx>SSB>") = .ret [] (some ⟨"Atoi", str "xx", kind⟩)) ∧
      (∃ kind, parse (str "<TIME_ON:4>1230<MODE:>SSB") = .ret [] (some ⟨"Atoi", [], kind⟩)) ∧
      parse (str "<MODE:xx>SSB>") = .ret [] (some ⟨"Atoi", str "xx", .ErrSyntax⟩) :=
  ⟨nonnumeric_length_fails (str "<MODE:xx>SSB>") [ruleTimeOn, ruleBand] (fields.drop 3)
      ruleMode ⟨0, str "xx", 9⟩ (by decide) (by rfl) (by decide) (by decide) (by decide),
    nonnumeric_length_fails (str "<TIME_ON:4>1230<MODE:>SSB") [ruleTimeOn, ruleBand]
      (fields.drop 3) ruleMode ⟨15, [], 22⟩ (by decide) (by rfl) (by decide) (by decide)
      (by decide),
    by decide⟩

/-! ## The loop of `read` -/

theorem readLoop_skip (line : Bytes) (rest qsos : List Bytes) (h : qualifies line = false) :
    readLoop (line :: rest) qsos = readLoop rest qsos := by
  unfold qualifies at h
  rw [readLoop, if_neg (by rw [h]; exact Bool.false_ne_true)]

theorem readLoop_ok (line phrase : Bytes) (rest qsos : List Bytes) (h : qualifies line = true)
    (hp : parse line = .ret phrase none) :
    readLoop (line :: rest) qsos = readLoop rest (qsos ++ [phrase]) := by
  unfold qualifies at h
  rw [readLoop, if_pos h, hp]

theorem readLoop_err (line phrase : Bytes) (err : NumError) (rest qsos : List Bytes)
    (h : qualifies line = true) (hp : parse line = .ret phrase (some err)) :
    readLoop (line :: rest) qsos = .ret qsos (some err) := by
  unfold qualifies at h
  rw [readLoop, if_pos h, hp]

theorem readLoop_panic (line : Bytes) (rest qsos : List Bytes)
    (h : qualifies line = true) (hp : parse line = .panic) :
    readLoop (line :: rest) qsos = .panic := by
  unfold qualifies at h
  rw [readLoop, if_pos h, hp]

theorem rendered_ok (line phrase : Bytes) (err : Option NumError)
    (hp : parse line = .ret phrase err) : rendered line = phrase := by
  unfold rendered
  rw [hp]

theorem readLoop_all_ok (lines qsos : List Bytes)
    (h : ∀ l ∈ lines, qualifies l = true → ∃ p, parse l = .ret p none) :
    readLoop lines qsos = .ret (qsos ++ (lines.filter qualifies).map rendered) none := by
  induction lines generalizing qsos with
  | nil => simp [readLoop]
  | cons l rest ih =>
    have ih2 := fun q => ih q (fun x hx => h x (List.mem_cons_of_mem _ hx))
    cases hq : qualifies l with
    | false =>
      rw [readLoop_skip l rest qsos hq, ih2, List.filter_cons_of_neg (by simp [hq])]
    | true =>
      obtain ⟨p, hp⟩ := h l (List.mem_cons_self _ _) hq
      rw [readLoop_ok l p rest qsos hq hp, ih2, List.filter_cons_of_pos hq, List.map_cons,
        rendered_ok l p none hp, List.append_assoc, List.singleton_append]

theorem readLoop_first_error (before after : List Bytes) (bad phrase : Bytes) (err : NumError)
    (qsos : List Bytes)
    (h : ∀ l ∈ before, qualifies l = true → ∃ p, parse l = .ret p none)
    (hq : qualifies bad = true) (hp : parse bad = .ret phrase (some err)) :
    readLoop (before ++ bad :: after) qsos =
      .ret (qsos ++ (before.filter qualifies).map rendered) (some err) := by
  induction before generalizing qsos with
  | nil =>
    rw [List.nil_append, readLoop_err bad phrase err after qsos hq hp]
    simp
  | cons l rest ih =>
    have ih2 := fun q => ih q (fun x hx => h x (List.mem_cons_of_mem _ hx))
    cases hl : qualifies l with
    | false =>
      rw [List.cons_append, readLoop_skip l _ qsos hl, ih2,
        List.filter_cons_of_neg (by simp [hl])]
    | true =>
      obtain ⟨p, hpl⟩ := h l (List.mem_cons_self _ _) hl
      rw [List.cons_append, readLoop_ok l p _ qsos hl hpl, ih2, List.filter_cons_of_pos hl,
        List.map_cons, rendered_ok l p none hpl, List.append_assoc, List.singleton_append]

theorem readLoop_ret_error (lines qsos out : List Bytes) (err : NumError)
    (h : readLoop lines qsos = .ret out (some err)) :
    ∃ before bad after phrase, lines = before ++ bad :: after ∧
      (∀ l ∈ before, qualifies l = true → ∃ p, parse l = .ret p none) ∧
      qualifies bad = true ∧ parse bad = .ret phrase (some err) ∧
      out = qsos ++ (before.filter qualifies).map rendered := by
  induction lines generalizing qsos with
  | nil => simp [readLoop] at h
  | cons l rest ih =>
    cases hq : qualifies l with
    | false =>
      rw [readLoop_skip l rest qsos hq] at h
      obtain ⟨before, bad, after, phrase, h1, h2, h3, h4, h5⟩ := ih qsos h
      refine ⟨l :: before, bad, after, phrase, by rw [h1]; rfl, ?_, h3, h4, ?_⟩
      · intro x hx hxq
        rcases List.mem_cons.mp hx with rfl | hx
        · rw [hq] at hxq; exact absurd hxq Bool.false_ne_true
        · exact h2 x hx hxq
      · rw [h5, List.filter_cons_of_neg (by simp [hq])]
    | true =>
      cases hp : parse l with
      | panic =>
        rw [readLoop_panic l rest qsos hq hp] at h
        exact Outcome.noConfusion h
      | ret p e =>
        cases e with
        | some e =>
          rw [readLoop_err l p e rest qsos hq hp] at h
          injection h with h1 h2
          injection h2 with h2
          subst h1; subst h2
          exact ⟨[], l, rest, p, rfl, by simp, hq, hp, by simp⟩
        | none =>
          rw [readLoop_ok l p rest qsos hq hp] at h
          obtain ⟨before, bad, after, phrase, h1, h2, h3, h4, h5⟩ := ih (qsos ++ [p]) h
          refine ⟨l :: before, bad, after, phrase, by rw [h1]; rfl, ?_, h3, h4, ?_⟩
          · intro x hx hxq
            rcases List.mem_cons.mp hx with rfl | hx
            · exact ⟨p, hp⟩
            · exact h2 x hx hxq
          · rw [h5, List.filter_cons_of_pos hq, List.map_cons, rendered_ok l p none hp,
              List.append_assoc, List.singleton_append]

theorem readLoop_ret_ok (lines qsos out : List Bytes)
    (h : readLoop lines qsos = .ret out none) :
    (∀ l ∈ lines, qualifies l = true → ∃ p, parse l = .ret p none) := by
  induction lines generalizing qsos with
  | nil => simp
  | cons l rest ih =>
    intro x hx hxq
    cases hq : qualifies l with
    | false =>
      rw [readLoop_skip l rest qsos hq] at h
      rcases List.mem_cons.mp hx with rfl | hx
      · rw [hq] at hxq; exact absurd hxq Bool.false_ne_true
      · exact ih qsos h x hx hxq
    | true =>
      cases hp : parse l with
      | panic =>
        rw [readLoop_panic l rest qsos hq hp] at h
        exact Outcome.noConfusion h
      | ret p e =>
        cases e with
        | some e =>
          rw [readLoop_err l p e rest qsos hq hp] at h
          injection h with h1 h2
          exact Option.noConfusion h2
        | none =>
          rw [readLoop_ok l p rest qsos hq hp] at h
          rcases List.mem_cons.mp hx with rfl | hx
          · exact ⟨p, hp⟩
          · exact ih (qsos ++ [p]) h x hx hxq

theorem qualifies_iff (line : Bytes) :
    qualifies line = true ↔ ∃ rest, line = str "<QSO_DATE:" ++ rest := by
  unfold qualifies
  constructor
  · intro h
    exact ⟨_, HasPrefix_eq line _ h⟩
  · rintro ⟨rest, rfl⟩
    exact HasPrefix_append _ rest

theorem scanLines_too_long (line rest cur : Bytes) (hnl : ∀ b ∈ line, b ≠ 0x0A)
    (hcur : cur.length < MaxScanTokenSize)
    (hlong : MaxScanTokenSize ≤ cur.length + line.length) :
    scanLines (line ++ rest) cur = [] := by
  induction line generalizing cur with
  | nil => simp at hlong; omega
  | cons b line ih =>
    have hb : b ≠ 0x0A := hnl b (List.mem_cons_self _ _)
    rw [List.cons_append, scanLines, if_neg hb]
    by_cases hfull : cur.length + 1 ≥ MaxScanTokenSize
    · rw [if_pos hfull]
    · rw [if_neg hfull]
      apply ih (cur ++ [b]) (fun x hx => hnl x (List.mem_cons_of_mem _ hx))
      · rw [List.length_append, List.length_singleton]; omega
      · rw [List.length_append, List.length_singleton]
        rw [List.length_cons] at hlong
        omega

/-! ## The record selector -/

/-- On the lines the scanner delivers: when `parse` renders without error every
scanned line that starts with `<QSO_DATE:`, `read` returns no error and the list
that has exactly one entry for each such line, in the order of the stream, the entry
being the phrase `parse` returns for that line; a line counts if and only if it
starts with the marker; and with no such line the list is empty. -/
theorem selector_filtering (input : Reader)
    (h : ∀ l ∈ scanTexts input, qualifies l = true → parse l = .ret (rendered l) none) :
    read input = .ret (((scanTexts input).filter qualifies).map rendered) none ∧
      (((scanTexts input).filter qualifies).map rendered).length =
        (scanTexts input).countP qualifies ∧
      (∀ l ∈ (scanTexts input).filter qualifies, parse l = .ret (rendered l) none) ∧
      (∀ line, qualifies line = true ↔ ∃ rest, line = str "<QSO_DATE:" ++ rest) ∧
      ((scanTexts input).countP qualifies = 0 → read input = .ret [] none) := by
  have h1 : read input = .ret (((scanTexts input).filter qualifies).map rendered) none := by
    unfold read
    rw [readLoop_all_ok (scanTexts input) [] (fun l hl hq => ⟨_, h l hl hq⟩), List.nil_append]
  have h2 : (((scanTexts input).filter qualifies).map rendered).length =
      (scanTexts input).countP qualifies := by
    rw [List.length_map, List.countP_eq_length_filter]
  refine ⟨h1, h2, ?_, qualifies_iff, ?_⟩
  · intro l hl
    obtain ⟨hmem, hq⟩ := List.mem_filter.mp hl
    exact h l hmem hq
  · intro h0
    rw [h1]
    rw [← h2] at h0
    rw [List.length_eq_zero.mp h0]

/-- On a stream of four short lines of which the second and the fourth start with
the marker, `read` returns their two phrases, in that order. -/
theorem selector_filtering_witness :
    read ⟨str "junk\n<QSO_DATE:8>20230115<TIME_ON:4>1230\n\n<QSO_DATE:8>20230116<MODE:3>SSB\n",
        none⟩ = .ret [str "time 1230 ", str "mode SSB "] none ∧
      read ⟨str "junk\nmore junk\n", none⟩ = .ret [] none :=
  ⟨((selector_filtering ⟨str
      "junk\n<QSO_DATE:8>20230115<TIME_ON:4>1230\n\n<QSO_DATE:8>20230116<MODE:3>SSB\n", none⟩
      (by decide)).1).trans (by decide),
    (selector_filtering ⟨str "junk\nmore junk\n", none⟩ (by decide)).2.2.2.2 (by decide)⟩

/-- C11, on the stream of two lines, `MaxScanTokenSize` bytes `A` and then
`<QSO_DATE:8>20230115<TIME_ON:4>1230`: the one line that starts with `<QSO_DATE:`
renders without error as `time 1230 `, but the first line fills the scanner's
buffer, the scanner delivers no line at all, and `read` returns no error and the
empty list instead of one entry. And on the stream `<QSO_DATE:8>20230115<TIME_ON:5>1230`
ended by a carriage return and a newline, the line up to the newline renders without
error, the scanner drops the carriage return, the five declared bytes are no longer
within the line, and `read` panics. -/
theorem selector_loses_records :
    qualifies (List.replicate MaxScanTokenSize 0x41) = false ∧
      qualifies (str "<QSO_DATE:8>20230115<TIME_ON:4>1230") = true ∧
      parse (str "<QSO_DATE:8>20230115<TIME_ON:4>1230") = .ret (str "time 1230 ") none ∧
      scanTexts ⟨List.replicate MaxScanTokenSize 0x41 ++
        str "\n<QSO_DATE:8>20230115<TIME_ON:4>1230\n", none⟩ = [] ∧
      read ⟨List.replicate MaxScanTokenSize 0x41 ++
        str "\n<QSO_DATE:8>20230115<TIME_ON:4>1230\n", none⟩ = .ret [] none ∧
      parse (str "<QSO_DATE:8>20230115<TIME_ON:5>1230\r") = .ret (str "time 1230 ") none ∧
      scanTexts ⟨str "<QSO_DATE:8>20230115<TIME_ON:5>1230\r\n", none⟩ =
        [str "<QSO_DATE:8>20230115<TIME_ON:5>1230"] ∧
      read ⟨str "<QSO_DATE:8>20230115<TIME_ON:5>1230\r\n", none⟩ = .panic := by
  have hs : scanLines (List.replicate MaxScanTokenSize 0x41 ++
      str "\n<QSO_DATE:8>20230115<TIME_ON:4>1230\n") [] = [] := by
    apply scanLines_too_long
    · intro b hb
      rw [List.eq_of_mem_replicate hb]
      decide
    · exact Nat.succ_pos _
    · rw [List.length_replicate]
      exact Nat.le_add_left _ _
  refine ⟨rfl, by decide, by decide, hs, ?_, by decide, by decide, by decide⟩
  unfold read scanTexts
  rw [hs]
  rfl

/-- C12, as stated, fails: on the one-line stream `<QSO_DATE:8>20230115<TIME_ON:4>1230`
`read` succeeds and its entry is the phrase `time 1230 `, not the line. -/
theorem read_entries_are_not_raw_lines :
    ¬ ∀ (input : Reader) (qsos : List Bytes), read input = .ret qsos none →
        qsos = (scanTexts input).filter qualifies := by
  intro h
  have h1 := h ⟨str "<QSO_DATE:8>20230115<TIME_ON:4>1230\n", none⟩ [str "time 1230 "]
    (by decide)
  exact absurd h1 (by decide)

/-- C12, amended: when `read` succeeds, each entry of the list it returns is the
phrase `parse` renders for the line it was selected from, the lines that start with
`<QSO_DATE:` taken in stream order. -/
theorem read_entries_are_rendered_phrases (input : Reader) (qsos : List Bytes)
    (h : read input = .ret qsos none) :
    qsos = ((scanTexts input).filter qualifies).map rendered ∧
      ∀ l ∈ (scanTexts input).filter qualifies, parse l = .ret (rendered l) none := by
  unfold read at h
  have hall := readLoop_ret_ok (scanTexts input) [] qsos h
  rw [readLoop_all_ok (scanTexts input) [] hall, List.nil_append] at h
  injection h with h1 _
  refine ⟨h1.symm, ?_⟩
  intro l hl
  obtain ⟨hmem, hq⟩ := List.mem_filter.mp hl
  obtain ⟨p, hp⟩ := hall l hmem hq
  rw [rendered_ok l p none hp, hp]

/-- C12, amended, on the one-line stream `<QSO_DATE:8>20230115<TIME_ON:4>1230`: the
entry is `time 1230 `. -/
theorem read_entries_are_rendered_phrases_witness :
    [str "time 1230 "] =
      ((scanTexts ⟨str "<QSO_DATE:8>20230115<TIME_ON:4>1230\n", none⟩).filter qualifies).map
        rendered :=
  (read_entries_are_rendered_phrases ⟨str "<QSO_DATE:8>20230115<TIME_ON:4>1230\n", none⟩
    [str "time 1230 "] (by decide)).1

/-- C13, on a stream of two lines that start with `<QSO_DATE:`: `parse` panics on
the first (declared length 9 beyond the record) and returns an error on the second
(length literal `xx`); `read` panics on the first line and returns no error. -/
theorem fail_fast_preceded_by_panic :
    scanTexts ⟨str "<QSO_DATE:8>20230115<TIME_ON:9>1230\n<QSO_DATE:8>20230115<MODE:xx>SSB\n",
        none⟩ =
        [str "<QSO_DATE:8>20230115<TIME_ON:9>1230", str "<QSO_DATE:8>20230115<MODE:xx>SSB"] ∧
      parse (str "<QSO_DATE:8>20230115<TIME_ON:9>1230") = .panic ∧
      parse (str "<QSO_DATE:8>20230115<MODE:xx>SSB") =
        .ret [] (some ⟨"Atoi", str "xx", .ErrSyntax⟩) ∧
      read ⟨str "<QSO_DATE:8>20230115<TIME_ON:9>1230\n<QSO_DATE:8>20230115<MODE:xx>SSB\n",
        none⟩ = .panic := by
  refine ⟨by decide, by decide, by decide, by decide⟩

/-- C14: the lines `read` works on, and so its result, do not depend on whether the
stream ended with a read error: on a stream that delivers one record and then fails,
`read` returns that record's phrase and no error; and when a line fills the
scanner's buffer of `MaxScanTokenSize` bytes, `read` returns the empty list and no
error, whatever follows. -/
theorem read_failure_not_reported :
    read ⟨str "<QSO_DATE:8>20230115<TIME_ON:4>1230\n", some "read: connection reset"⟩ =
        .ret [str "time 1230 "] none ∧
      (∀ (data : Bytes) (e : Option String), read ⟨data, e⟩ = read ⟨data, none⟩) ∧
      (∀ rest : Bytes, read ⟨List.replicate MaxScanTokenSize 0x41 ++ rest, none⟩ =
        .ret [] none) := by
  refine ⟨by decide, fun _ _ => rfl, ?_⟩
  intro rest
  have hs : scanLines (List.replicate MaxScanTokenSize 0x41 ++ rest) [] = [] := by
    apply scanLines_too_long
    · intro b hb
      rw [List.eq_of_mem_replicate hb]
      decide
    · exact Nat.succ_pos _
    · rw [List.length_replicate]
      exact Nat.le_add_left _ _
  unfold read scanTexts
  rw [hs]
  rfl

/-- C19: `read` returns an error together with a list exactly when some scanned line
that starts with `<QSO_DATE:` makes `parse` return that error after `parse` has
rendered every such line before it; the list is then the phrases of those earlier
lines, in order, with no entry for the failing line. -/
theorem partial_results_with_error (input : Reader) (qsos : List Bytes) (err : NumError) :
    read input = .ret qsos (some err) ↔
      ∃ before bad after phrase, scanTexts input = before ++ bad :: after ∧
        (∀ l ∈ before, qualifies l = true → parse l = .ret (rendered l) none) ∧
        qualifies bad = true ∧ parse bad = .ret phrase (some err) ∧
        qsos = (before.filter qualifies).map rendered := by
  unfold read
  constructor
  · intro h
    obtain ⟨before, bad, after, phrase, h1, h2, h3, h4, h5⟩ :=
      readLoop_ret_error (scanTexts input) [] qsos err h
    refine ⟨before, bad, after, phrase, h1, ?_, h3, h4, by rw [h5, List.nil_append]⟩
    intro l hl hq
    obtain ⟨p, hp⟩ := h2 l hl hq
    rw [rendered_ok l p none hp, hp]
  · rintro ⟨before, bad, after, phrase, h1, h2, h3, h4, h5⟩
    rw [h1, readLoop_first_error before after bad phrase err []
      (fun l hl hq => ⟨_, h2 l hl hq⟩) h3 h4, h5, List.nil_append]

/-- C19, on a stream whose first and third lines render and whose fourth makes
`parse` fail: `read` returns the two phrases of the earlier lines with the error. -/
theorem partial_results_with_error_witness :
    read ⟨str ("<QSO_DATE:8>20230115<TIME_ON:4>1230\nnoise\n<QSO_DATE:8>20230116<MODE:3>SSB\n" ++
        "<QSO_DATE:8>20230117<MODE:xx>SSB\n<QSO_DATE:8>20230118<MODE:3>SSB\n"), none⟩ =
        .ret [str "time 1230 ", str "mode SSB "] (some ⟨"Atoi", str "xx", .ErrSyntax⟩) ∧
      ∃ before bad after phrase,
        scanTexts ⟨str ("<QSO_DATE:8>20230115<TIME_ON:4>1230\nnoise\n" ++
          "<QSO_DATE:8>20230116<MODE:3>SSB\n" ++
          "<QSO_DATE:8>20230117<MODE:xx>SSB\n<QSO_DATE:8>20230118<MODE:3>SSB\n"), none⟩ =
          before ++ bad :: after ∧
        (∀ l ∈ before, qualifies l = true → parse l = .ret (rendered l) none) ∧
        qualifies bad = true ∧
        parse bad = .ret phrase (some ⟨"Atoi", str "xx", .ErrSyntax⟩) ∧
        [str "time 1230 ", str "mode SSB "] = (before.filter qualifies).map rendered :=
  ⟨by decide,
    (partial_results_with_error _ [str "time 1230 ", str "mode SSB "]
      ⟨"Atoi", str "xx", .ErrSyntax⟩).mp (by decide)⟩

/-! ## Panics and errors of `parse` -/

theorem Atoi_cases (s : Bytes) :
    (∃ n, Atoi s = .ok n) ∨ (∃ k, Atoi s = .error ⟨"Atoi", s, k⟩) := by
  unfold Atoi
  by_cases hl : 0 < s.length ∧ s.length < 19
  · rw [if_pos hl]
    cases s with
    | nil => exact Or.inr ⟨_, rfl⟩
    | cons c t =>
      dsimp only
      by_cases h1 : (decide (c = 0x2D ∨ c = 0x2B) = true ∧
          (if decide (c = 0x2D ∨ c = 0x2B) = true then t else c :: t).length < 1)
      · rw [if_pos h1]; exact Or.inr ⟨_, rfl⟩
      · rw [if_neg h1]
        cases atoiDigits (if decide (c = 0x2D ∨ c = 0x2B) = true then t else c :: t) 0 with
        | none => exact Or.inr ⟨_, rfl⟩
        | some n => exact Or.inl ⟨_, rfl⟩
  · rw [if_neg hl]
    cases ParseInt s with
    | error k => exact Or.inr ⟨k, rfl⟩
    | ok i => exact Or.inl ⟨i, rfl⟩

theorem Atoi_error (s : Bytes) (e : NumError) (h : Atoi s = .error e) :
    e = ⟨"Atoi", s, e.Err⟩ := by
  rcases Atoi_cases s with ⟨n, hn⟩ | ⟨k, hk⟩
  · rw [hn] at h; exact Except.noConfusion h
  · rw [hk] at h
    injection h with h
    rw [← h]

theorem decodeRest_fail (record : Bytes) (start : Int) (r : Except NumError Int) (e : NumError)
    (h : decodeRest record start r = .fail e) : r = .error e := by
  cases r with
  | error e2 =>
    rw [decodeRest] at h
    injection h with h
    rw [h]
  | ok dl =>
    rw [decodeRest] at h
    cases hs : slice record start (add64 start dl) with
    | none => rw [hs, decodeSlice] at h; exact Decoded.noConfusion h
    | some raw => rw [hs, decodeSlice] at h; exact Decoded.noConfusion h

theorem decodeField_fail (record : Bytes) (field : fieldInfo) (e : NumError)
    (h : decodeField record field = .fail e) : ∃ lit, Atoi lit = .error e := by
  by_cases hI : Index record field.key = -1
  · simp only [decodeField, hI, if_true] at h
    exact Decoded.noConfusion h
  · cases hsf : sliceFrom record (Index record field.key) with
    | none =>
      simp only [decodeField, hI, if_false, hsf] at h
      exact Decoded.noConfusion h
    | some tail =>
      cases hsl : slice record (add64 (Index record field.key) (len field.key))
          (add64 (Index tail endMark) (Index record field.key)) with
      | none =>
        simp only [decodeField, hI, if_false, hsf, hsl] at h
        exact Decoded.noConfusion h
      | some dataLen =>
        cases hA : Atoi dataLen with
        | error err =>
          simp only [decodeField, hI, if_false, hsf, hsl, hA] at h
          injection h with h
          exact ⟨dataLen, by rw [hA, h]⟩
        | ok dl =>
          cases hs2 : slice record
              (add64 (add64 (add64 (Index record field.key) (len field.key)) (len dataLen))
                (len endMark))
              (add64 (add64 (add64 (add64 (Index record field.key) (len field.key))
                (len dataLen)) (len endMark)) dl) with
          | none =>
            simp only [decodeField, hI, if_false, hsf, hsl, hA, hs2] at h
            exact Decoded.noConfusion h
          | some raw =>
            simp only [decodeField, hI, if_false, hsf, hsl, hA, hs2] at h
            exact Decoded.noConfusion h

theorem parseField_exit (record : Bytes) (field : fieldInfo) (response phrase : Bytes)
    (e : NumError) (h : parseField record field response = .exit phrase e) :
    phrase = [] ∧ decodeField record field = .fail e := by
  unfold parseField at h
  cases hd : decodeField record field with
  | absent => rw [hd] at h; exact Flow.noConfusion h
  | panic => rw [hd] at h; exact Flow.noConfusion h
  | fail err =>
    rw [hd] at h
    injection h with h1 h2
    exact ⟨h1.symm, by rw [h2]⟩
  | data d =>
    rw [hd] at h
    cases hw : writeField field d response with
    | none => simp only [hw] at h; exact Flow.noConfusion h
    | some r => simp only [hw] at h; exact Flow.noConfusion h

theorem parseLoop_error (record : Bytes) (table : List fieldInfo) (response phrase : Bytes)
    (e : NumError) (h : parseLoop record table response = .ret phrase (some e)) :
    phrase = [] ∧ ∃ f ∈ table, decodeField record f = .fail e := by
  induction table generalizing response with
  | nil =>
    rw [parseLoop] at h
    injection h with _ h2
    exact Option.noConfusion h2
  | cons f rest ih =>
    rw [parseLoop] at h
    cases hf : parseField record f response with
    | next out =>
      rw [hf] at h
      obtain ⟨h1, g, hg, h2⟩ := ih out h
      exact ⟨h1, g, List.mem_cons_of_mem _ hg, h2⟩
    | exit p err =>
      rw [hf] at h
      injection h with h1 h2
      injection h2 with h2
      obtain ⟨h3, h4⟩ := parseField_exit record f response p err hf
      exact ⟨by rw [← h1, h3], f, List.mem_cons_self _ _, by rw [h4, h2]⟩
    | panic =>
      rw [hf] at h
      exact Outcome.noConfusion h

theorem truncating_rules : ∀ f ∈ fields, f.spaced = true ∨ f.truncateTrailingN = 0 ∨
    (f.key = str "<BAND:" ∧ f.truncateTrailingN = 1) := by
  have h : fields.all (fun f => f.spaced || decide (f.truncateTrailingN = 0) ||
      (decide (f.key = str "<BAND:") && decide (f.truncateTrailingN = 1))) = true := by rfl
  intro f hf
  have := List.all_eq_true.mp h f hf
  simpa [or_assoc] using this

theorem fieldValue_eq (record : Bytes) (field : fieldInfo) (raw : Bytes)
    (h : rawValue record field = some raw) : fieldValue record field = TrimSpace raw := by
  unfold fieldValue
  rw [h]

theorem parseLoop_wellFormed (record : Bytes) (table : List fieldInfo) (response : Bytes)
    (hlen : record.length < 2 ^ 63) (hkeys : ∀ f ∈ table, 0x3E ∉ f.key)
    (h : ∀ f ∈ table, keyOccurs record f = true → wellFormed record f = true) :
    parseLoop record table response =
      .ret (response ++ (table.filter (keyOccurs record)).flatMap
        (fun f => render f (fieldValue record f))) none := by
  induction table generalizing response with
  | nil => simp [parseLoop]
  | cons f rest ih =>
    have ih2 := fun r => ih r (fun x hx => hkeys x (List.mem_cons_of_mem _ hx))
      (fun x hx => h x (List.mem_cons_of_mem _ hx))
    cases hk : keyOccurs record f with
    | false =>
      simp only [parseLoop, parseField_absent record f response hk]
      rw [ih2, List.filter_cons_of_neg (by simp [hk])]
    | true =>
      have hw := h f (List.mem_cons_self _ _) hk
      unfold wellFormed at hw
      cases hr : rawValue record f with
      | none => rw [hr] at hw; exact absurd hw Bool.false_ne_true
      | some raw =>
        rw [hr] at hw
        have hok : f.spaced = true ∨
            (0 ≤ f.truncateTrailingN ∧ f.truncateTrailingN ≤ len (TrimSpace raw)) := by
          simpa using hw
        simp only [parseLoop, parseField_rawValue record f raw response hlen
          (hkeys f (List.mem_cons_self _ _)) hr hok]
        rw [ih2, List.filter_cons_of_pos hk, List.flatMap_cons, fieldValue_eq record f raw hr,
          List.append_assoc]

theorem indexOf_first (substr s : Bytes) (i : Nat) (h : indexOf substr s = some i) :
    ∀ j < i, HasPrefix (s.drop j) substr = false := by
  induction s generalizing i with
  | nil =>
    rw [indexOf] at h
    split at h
    · injection h with h
      intro j hj
      omega
    · exact Option.noConfusion h
  | cons c s ih =>
    rw [indexOf] at h
    cases hp : HasPrefix (c :: s) substr with
    | true =>
      rw [hp, if_pos rfl] at h
      injection h with h
      intro j hj
      omega
    | false =>
      rw [hp, if_neg Bool.false_ne_true] at h
      cases hi : indexOf substr s with
      | none => rw [hi] at h; exact Option.noConfusion h
      | some k =>
        rw [hi] at h
        have h : k + 1 = i := by simpa using h
        intro j hj
        cases j with
        | zero => exact hp
        | succ j =>
          rw [List.drop_succ_cons]
          exact ih k hi j (by omega)

/-! ## Over-truncation, totality and the error value -/

/-- C15: a BAND value of one byte renders with an empty token (`<BAND:1>m` gives
`band`, three spaces, `meters`, two spaces), but a BAND value that is empty after
trimming, as in `<BAND:1> ` (one space) or `<BAND:2>` followed by a space and a tab,
makes the slice `data[:len(data)-1]` out of range and `parse` panics. -/
theorem over_truncation_panics :
    parse (str "<BAND:1>m") = .ret (str "band   meters  ") none ∧
      rawValue (str "<BAND:1> ") ruleBand = some (str " ") ∧
      fieldValue (str "<BAND:1> ") ruleBand = [] ∧
      parse (str "<BAND:1> ") = .panic ∧
      parse (str "<BAND:2> \t") = .panic := by
  refine ⟨by decide, by decide, by decide, by decide, by decide⟩

/-- C16: on `<MODE:3`, where no `>` follows the key, `strings.Index` returns `-1`,
the slice `record[6:-1]` is out of range and `parse` panics: it yields neither a
phrase nor an error. -/
theorem parse_not_total :
    keyOccurs (str "<MODE:3") ruleMode = true ∧
      locate (str "<MODE:3") ruleMode = none ∧
      decodeField (str "<MODE:3") ruleMode = .panic ∧
      parse (str "<MODE:3") = .panic ∧
      (∀ phrase err, parse (str "<MODE:3") ≠ .ret phrase err) := by
  have h : parse (str "<MODE:3") = .panic := by decide
  refine ⟨by decide, by decide, by decide, h, ?_⟩
  intro phrase err
  rw [h]
  exact fun h2 => Outcome.noConfusion h2

/-- C17, as stated, fails: the records `<MODE:xx>SSB` and `<TIME_ON:xx>1230` fail on
different fields and `parse` returns the same error value for both. -/
theorem parse_error_does_not_name_the_field :
    ¬ ∃ e1 e2, parse (str "<MODE:xx>SSB") = .ret [] (some e1) ∧
        parse (str "<TIME_ON:xx>1230") = .ret [] (some e2) ∧ e1 ≠ e2 := by
  rintro ⟨e1, e2, h1, h2, hne⟩
  have hm : parse (str "<MODE:xx>SSB") = .ret [] (some ⟨"Atoi", str "xx", .ErrSyntax⟩) := by
    decide
  have ht : parse (str "<TIME_ON:xx>1230") = .ret [] (some ⟨"Atoi", str "xx", .ErrSyntax⟩) := by
    decide
  rw [hm] at h1
  rw [ht] at h2
  injection h1 with _ h1
  injection h2 with _ h2
  injection h1 with h1
  injection h2 with h2
  exact hne (h1.symm.trans h2)

/-- C17, amended: when `parse` returns an error, the phrase is empty and the error
is the `strconv.NumError` that `strconv.Atoi` returns for the length literal of one
of the rules: its function name is `Atoi`, its text is that literal and it is the
very value `Atoi` gives for that text, so it depends on the literal alone, not on the
rule's key nor on an offset in the record. -/
theorem parse_error_is_the_atoi_error (record phrase : Bytes) (e : NumError)
    (h : parse record = .ret phrase (some e)) :
    phrase = [] ∧ e.Func = "Atoi" ∧ Atoi e.Num = .error e ∧
      ∃ f ∈ fields, decodeField record f = .fail e := by
  obtain ⟨h1, f, hf, h2⟩ := parseLoop_error record fields [] phrase e h
  obtain ⟨lit, hlit⟩ := decodeField_fail record f e h2
  have he := Atoi_error lit e hlit
  have hnum : e.Num = lit := by rw [he]
  refine ⟨h1, by rw [he], ?_, f, hf, h2⟩
  rw [hnum, hlit]

/-- C17, amended, at the record `<TIME_ON:xx>1230`. -/
theorem parse_error_is_the_atoi_error_witness :
    Atoi (str "xx") = .error ⟨"Atoi", str "xx", .ErrSyntax⟩ ∧
      ∃ f ∈ fields, decodeField (str "<TIME_ON:xx>1230") f =
        .fail ⟨"Atoi", str "xx", .ErrSyntax⟩ :=
  ⟨(parse_error_is_the_atoi_error (str "<TIME_ON:xx>1230") [] ⟨"Atoi", str "xx", .ErrSyntax⟩
      (by decide)).2.2.1,
    (parse_error_is_the_atoi_error (str "<TIME_ON:xx>1230") [] ⟨"Atoi", str "xx", .ErrSyntax⟩
      (by decide)).2.2.2⟩

/-! ## Well-formed records -/

/-- C18: when, for every rule of the table whose key occurs in the record, the first
occurrence of the key is followed by one or more decimal digits and a `>`, the
digits denote `N`, the `N` bytes after the `>` lie within the record and, for BAND,
the trimmed value is not empty, `parse` returns with no error and no slice out of
range, and the phrase is the concatenation in table order of the renderings of the
decoded values. -/
theorem wellformed_records_render (record : Bytes) (hlen : record.length < 2 ^ 63)
    (h : ∀ f ∈ fields, keyOccurs record f = true →
      (rawValue record f).isSome = true ∧
        (f.key = str "<BAND:" → fieldValue record f ≠ [])) :
    parse record =
      .ret ((fields.filter (keyOccurs record)).flatMap
        (fun f => render f (fieldValue record f))) none := by
  have hw : ∀ f ∈ fields, keyOccurs record f = true → wellFormed record f = true := by
    intro f hf hk
    obtain ⟨h1, h2⟩ := h f hf hk
    unfold wellFormed
    cases hr : rawValue record f with
    | none => rw [hr] at h1; exact absurd h1 Bool.false_ne_true
    | some raw =>
      have hv := fieldValue_eq record f raw hr
      rcases truncating_rules f hf with hs | h0 | ⟨hb, hb1⟩
      · simp [hs]
      · have : (0 : Int) ≤ len (TrimSpace raw) := by unfold len; omega
        simp [h0, this]
      · have hne : TrimSpace raw ≠ [] := by rw [← hv]; exact h2 hb
        have hpos : 0 < (TrimSpace raw).length := List.length_pos.mpr hne
        have : (1 : Int) ≤ len (TrimSpace raw) := by unfold len; omega
        simp [hb1, this]
  unfold parse parseWith
  rw [parseLoop_wellFormed record fields [] hlen keys_without_endMark hw, List.nil_append]

/-- C18, at the record
`<QSO_DATE:8>20230115<CALL:5>AB1CD<BAND:3>20m<TIME_ON:4>1230<COMMENT:6> hello`. -/
theorem wellformed_records_render_witness :
    parse (str "<QSO_DATE:8>20230115<CALL:5>AB1CD<BAND:3>20m<TIME_ON:4>1230<COMMENT:6> hello") =
      .ret (str "time 1230 band 20  meters  station A B 1 C D comment hello ") none :=
  (wellformed_records_render
    (str "<QSO_DATE:8>20230115<CALL:5>AB1CD<BAND:3>20m<TIME_ON:4>1230<COMMENT:6> hello")
    (by decide) (by decide)).trans (by decide)

/-! ## Key search -/

/-- C20: keys are found by a first-substring search over the whole record. In
`<COMMENT:11><MODE:3>SSB` the key of MODE occurs only inside the value of COMMENT
and `parse` renders both rules, `mode SSB comment <MODE:3>SSB `; in
`<MODE:3>SSB<MODE:2>CW` only the first MODE field is rendered. In general the offset
`strings.Index` gives is an occurrence of the key with no occurrence before it, and
the field of a rule of the table is decoded from that offset alone: from the length
literal and the value that follow the first occurrence. -/
theorem keys_found_by_first_substring_search :
    parse (str "<COMMENT:11><MODE:3>SSB") = .ret (str "mode SSB comment <MODE:3>SSB ") none ∧
      fieldValue (str "<COMMENT:11><MODE:3>SSB") ruleComment = str "<MODE:3>SSB" ∧
      parse (str "<MODE:3>SSB<MODE:2>CW") = .ret (str "mode SSB ") none ∧
      (∀ (record : Bytes) (f : fieldInfo) (i : Nat), indexOf f.key record = some i →
        Index record f.key = (i : Int) ∧
        record.drop i = f.key ++ record.drop (i + f.key.length) ∧
        ∀ j < i, HasPrefix (record.drop j) f.key = false) ∧
      (∀ (record : Bytes) (f : fieldInfo) (loc : Located), record.length < 2 ^ 63 →
        f ∈ fields → locate record f = some loc →
        indexOf f.key record = some loc.keyAt ∧
        decodeField record f = decodeRest record (loc.valueAt : Int) (Atoi loc.literal)) := by
  refine ⟨by decide, by decide, by decide, ?_, ?_⟩
  · intro record f i hi
    refine ⟨?_, (indexOf_some f.key record i hi).2, indexOf_first f.key record i hi⟩
    unfold Index
    rw [hi]
  · intro record f loc hlen hf hloc
    refine ⟨?_, decodeField_located record f loc hlen (keys_without_endMark f hf) hloc⟩
    unfold locate at hloc
    cases hi : indexOf f.key record with
    | none => rw [hi] at hloc; exact Option.noConfusion hloc
    | some i =>
      rw [hi] at hloc
      cases hk : indexOf endMark (record.drop (i + f.key.length)) with
      | none => simp only [hk] at hloc; exact Option.noConfusion hloc
      | some k =>
        simp only [hk] at hloc
        injection hloc with hloc
        rw [← hloc]

end Adifspeak
